import Mathlib

/-!
Verification development for the compressed source codec
(`src/compressed-source.cc`) and the production classifier
(`src/production-classifier.h`).

The codec operates on a byte stream of tokens:
* code `0` (ASCII escape): followed by one literal byte;
* code `1` (Unicode escape): followed by three big-endian payload bytes
  encoding one code point;
* codes `2..255` (dictionary bytecodes): expand to a fixed sequence of
  UTF-16 code units of length `token_lengths[code]`.

The dictionary tables (`code-table.inc.c`) are generated data that is not
part of the repository; they are abstracted as a `CodeTable` structure
carrying exactly the facts the code asserts about them
(`token_lengths[kAsciiCode] == 1`, `token_lengths[kUnicodeCode] == 1`,
lengths in `1..9`).
-/

namespace V8

/-- Model of `unibrow::Utf16::kMaxNonSurrogateCharCode`. -/
def kMaxNonSurrogateCharCode : Nat := 0xFFFF

/-- Model of `CompressedSourceCodec::decode_unicode`: `(b0 << 16) | (b1 << 8) | b2`. -/
def decode_unicode (b0 b1 b2 : Nat) : Nat :=
  (b0 <<< 16) ||| (b1 <<< 8) ||| b2

/-- Model of `CompressedSourceCodec::uc16_length`: note the strict `<` against
`kMaxNonSurrogateCharCode`. -/
def uc16_length (b0 b1 b2 : Nat) : Nat :=
  if decode_unicode b0 b1 b2 < kMaxNonSurrogateCharCode then 1 else 2

/-- Model of `unibrow::Utf16::LeadSurrogate`. -/
def leadSurrogate (cp : Nat) : Nat :=
  0xD800 + (((cp - 0x10000) >>> 10) &&& 0x3FF)

/-- Model of `unibrow::Utf16::TrailSurrogate`. -/
def trailSurrogate (cp : Nat) : Nat :=
  0xDC00 + (cp &&& 0x3FF)

/-- Model of `unibrow::Utf16::IsLeadSurrogate`. -/
def isLeadSurrogateB (u : Nat) : Bool := u &&& 0xFC00 == 0xD800

/-- Model of `unibrow::Utf16::IsTrailSurrogate`. -/
def isTrailSurrogateB (u : Nat) : Bool := u &&& 0xFC00 == 0xDC00

/-- Model of `unibrow::Utf16::CombineSurrogatePair`. -/
def combineSurrogatePair (lead trail : Nat) : Nat :=
  0x10000 + ((lead &&& 0x3FF) <<< 10) + (trail &&& 0x3FF)

/-- The UTF-16 code-unit sequence of a code point: one unit for the basic
plane, a surrogate pair for supplementary code points. -/
def utf16Units (cp : Nat) : List Nat :=
  if cp ≤ kMaxNonSurrogateCharCode then [cp]
  else [leadSurrogate cp, trailSurrogate cp]

/-- Model of `CompressedSourceCodec::write_as_utf16` (the `uc16*` overload): writes
whatever fits in the first `destLen` slots, and returns the full code-unit
count (1 or 2) regardless of how much fit.  Modelled as the pair
(units actually written, returned count). -/
def write_as_utf16 (cp destLen : Nat) : List Nat × Nat :=
  if cp ≤ kMaxNonSurrogateCharCode then
    ((if 1 ≤ destLen then [cp] else []), 1)
  else
    ((utf16Units cp).take destLen, 2)

/-- The static dictionary tables of `code-table.inc.c`, abstracted.  The
fields record exactly what `CompressedSourceCodec::Encode` asserts:
`token_lengths[kAsciiCode] == 1`, `token_lengths[kUnicodeCode] == 1`, and
every token expansion has length `token_lengths[code]`, between 1 and
`kMaxTokenLength = 9`. -/
structure CodeTable where
  token_lengths : Nat → Nat
  expansion : Nat → List Nat
  len_ascii : token_lengths 0 = 1
  len_unicode : token_lengths 1 = 1
  len_pos : ∀ c, 1 ≤ token_lengths c
  len_max : ∀ c, token_lengths c ≤ 9
  expansion_length : ∀ c, (expansion c).length = token_lengths c

/-- A concrete table satisfying the interface, used to run the model on
concrete inputs: every dictionary bytecode expands to a single code unit
equal to the code itself. -/
def simpleTable : CodeTable where
  token_lengths := fun _ => 1
  expansion := fun c => [c]
  len_ascii := rfl
  len_unicode := rfl
  len_pos := fun _ => le_refl 1
  len_max := fun _ => by norm_num
  expansion_length := fun _ => rfl

/-- Model of `CompressedSourceCodec::Cursor`: a byte offset into the compressed
stream plus an offset into the first token. -/
structure Cursor where
  byte_offset : Nat
  sub_token_offset : Nat
deriving DecidableEq, Repr

/-- One token of the compressed stream: an ASCII escape with its literal
byte, a Unicode escape with its three payload bytes, or a dictionary
bytecode. -/
inductive Token where
  | asciiTok (b : Nat)
  | unicodeTok (b0 b1 b2 : Nat)
  | byteTok (c : Nat)
deriving DecidableEq, Repr

/-- The bytes a token occupies in the compressed stream. -/
def Token.bytes : Token → List Nat
  | .asciiTok b => [0, b]
  | .unicodeTok b0 b1 b2 => [1, b0, b1, b2]
  | .byteTok c => [c]

/-- Well-formedness of a token: payload fits in bytes, and a bytecode is in
`kFirstBytecode .. kLastBytecode`. -/
def Token.wf : Token → Prop
  | .asciiTok b => b ≤ 255
  | .unicodeTok b0 b1 b2 => b0 ≤ 255 ∧ b1 ≤ 255 ∧ b2 ≤ 255
  | .byteTok c => 2 ≤ c ∧ c ≤ 255

instance : DecidablePred Token.wf := by
  intro t; cases t <;> dsimp [Token.wf] <;> infer_instance

/-- The number of logical characters `AdvanceCursor` charges for a token:
`token_lengths[code]`, plus `uc16_length(payload) - 1` for a Unicode
escape. -/
def Token.alen (tbl : CodeTable) : Token → Nat
  | .asciiTok _ => tbl.token_lengths 0
  | .unicodeTok b0 b1 b2 => tbl.token_lengths 1 + (uc16_length b0 b1 b2 - 1)
  | .byteTok c => tbl.token_lengths c

/-- The code units a token actually decodes to. -/
def Token.units (tbl : CodeTable) : Token → List Nat
  | .asciiTok b => [b]
  | .unicodeTok b0 b1 b2 => utf16Units (decode_unicode b0 b1 b2)
  | .byteTok c => tbl.expansion c

/-- Serialization of a token sequence into the compressed byte stream. -/
def tokensBytes (ts : List Token) : List Nat := (ts.map Token.bytes).flatten

/-- Total `AdvanceCursor` character count of a token sequence. -/
def alenSum (tbl : CodeTable) (ts : List Token) : Nat :=
  (ts.map (Token.alen tbl)).sum

/-- Total decoded code-unit count of a token sequence. -/
def dlenSum (tbl : CodeTable) (ts : List Token) : Nat :=
  (ts.map (fun t => (t.units tbl).length)).sum

/-- Concatenated decoded code units of a token sequence. -/
def unitsFrom (tbl : CodeTable) (ts : List Token) : List Nat :=
  (ts.map (Token.units tbl)).flatten

theorem Token.one_le_alen (tbl : CodeTable) (t : Token) : 1 ≤ t.alen tbl := by
  cases t <;> simp [Token.alen] <;> [skip; exact Nat.le_add_right_of_le (tbl.len_pos 1); skip]
  · exact tbl.len_pos 0
  · exact tbl.len_pos _

/-- The loop of `CompressedSourceCodec::AdvanceCursor`.  State: current
`byte_offset`, `chars_written`, and the previous values saved at the top of
each iteration; `chars` is the target (requested characters plus the
starting `sub_token_offset`). -/
def advLoop (tbl : CodeTable) (data : List Nat) (chars : Nat) :
    Nat → Nat → Nat → Nat → Cursor
  | byteOff, charsW, prevB, prevC =>
    if h : charsW < chars then
      if 2 ≤ data.getD byteOff 0 then
        advLoop tbl data chars (byteOff + 1)
          (charsW + tbl.token_lengths (data.getD byteOff 0)) byteOff charsW
      else if data.getD byteOff 0 = 0 then
        advLoop tbl data chars (byteOff + 2)
          (charsW + tbl.token_lengths (data.getD byteOff 0)) byteOff charsW
      else
        advLoop tbl data chars (byteOff + 4)
          (charsW + tbl.token_lengths (data.getD byteOff 0) +
            (uc16_length (data.getD (byteOff + 1) 0) (data.getD (byteOff + 2) 0)
              (data.getD (byteOff + 3) 0) - 1))
          byteOff charsW
    else if charsW = chars then ⟨byteOff, 0⟩
    else ⟨prevB, chars - prevC⟩
termination_by byteOff charsW => chars - charsW
decreasing_by
  · have := tbl.len_pos (data.getD byteOff 0); omega
  · have := tbl.len_pos (data.getD byteOff 0); omega
  · have := tbl.len_pos (data.getD byteOff 0); omega

/-- Model of `CompressedSourceCodec::AdvanceCursor`. -/
def advanceCursor (tbl : CodeTable) (data : List Nat) (c : Cursor)
    (chars : Nat) : Cursor :=
  advLoop tbl data (chars + c.sub_token_offset) c.byte_offset 0 0 0

/-- Reference advance over the parsed token sequence: consume whole tokens
while their `alen` fits, landing canonically on a boundary at an exact
match and mid-token otherwise. -/
def refAdvance (tbl : CodeTable) : List Token → Nat → Nat → Cursor
  | [], b, _ => ⟨b, 0⟩
  | t :: ts, b, n =>
    if n = 0 then ⟨b, 0⟩
    else if t.alen tbl ≤ n then
      refAdvance tbl ts (b + t.bytes.length) (n - t.alen tbl)
    else ⟨b, n⟩

/-- The whole-token loop of `CompressedSourceCodec::Decode`: read a code,
expand it, and advance the destination pointer by the count the expansion
helper reports, until the destination is full.  Modelled as the list of
code units written when `remaining` destination slots are left. -/
def decodeLoop (tbl : CodeTable) (data : List Nat) :
    Nat → Nat → List Nat
  | ptr, remaining =>
    if h : remaining = 0 then []
    else
      if 2 ≤ data.getD ptr 0 then
        (tbl.expansion (data.getD ptr 0)).take remaining ++
          decodeLoop tbl data (ptr + 1)
            (remaining - ((tbl.expansion (data.getD ptr 0)).take
              remaining).length)
      else if data.getD ptr 0 = 0 then
        data.getD (ptr + 1) 0 :: decodeLoop tbl data (ptr + 2) (remaining - 1)
      else
        (write_as_utf16 (decode_unicode (data.getD (ptr + 1) 0)
            (data.getD (ptr + 2) 0) (data.getD (ptr + 3) 0)) remaining).1 ++
          decodeLoop tbl data (ptr + 4)
            (remaining - (write_as_utf16 (decode_unicode (data.getD (ptr + 1) 0)
              (data.getD (ptr + 2) 0) (data.getD (ptr + 3) 0)) remaining).2)
termination_by ptr remaining => remaining
decreasing_by
  · have h1 := tbl.len_pos (data.getD ptr 0)
    have h2 := tbl.expansion_length (data.getD ptr 0)
    simp only [List.length_take]
    omega
  · omega
  · simp only [write_as_utf16]
    split <;> simp <;> omega

/-- The tail of `Decode`'s partial-first-token phase: copy the decoded
first token from `sub` on (clamped to the destination), then run the
whole-token loop for what remains. -/
def decodeFirst (tbl : CodeTable) (data : List Nat) (first : List Nat)
    (ptr sub destLen : Nat) : List Nat :=
  (first.drop sub).take destLen ++
    decodeLoop tbl data ptr (destLen - ((first.drop sub).take destLen).length)

/-- Model of `CompressedSourceCodec::Decode`: if the cursor points mid-token, decode
the first token into a `kMaxTokenLength`-sized scratch buffer, copy the part
past `sub_token_offset` (clamped to the destination), then run the
whole-token loop. -/
def decode (tbl : CodeTable) (data : List Nat) (c : Cursor)
    (destLen : Nat) : List Nat :=
  if c.sub_token_offset ≠ 0 then
    if 2 ≤ data.getD c.byte_offset 0 then
      decodeFirst tbl data
        ((tbl.expansion (data.getD c.byte_offset 0)).take 9)
        (c.byte_offset + 1) c.sub_token_offset destLen
    else if data.getD c.byte_offset 0 = 0 then
      decodeFirst tbl data [data.getD (c.byte_offset + 1) 0]
        (c.byte_offset + 2) c.sub_token_offset destLen
    else
      decodeFirst tbl data
        ((write_as_utf16 (decode_unicode (data.getD (c.byte_offset + 1) 0)
          (data.getD (c.byte_offset + 2) 0)
          (data.getD (c.byte_offset + 3) 0)) 9).1)
        (c.byte_offset + 4) c.sub_token_offset destLen
  else decodeLoop tbl data c.byte_offset destLen

/-- The guard of the `UNREACHABLE()` ASCII-escape branch in the
partial-first-token phase of `Decode`: it executes exactly when the cursor
sits mid-token and the code byte under it is neither a bytecode nor a
Unicode escape. -/
def decodeAsciiUnreachableHit (data : List Nat) (c : Cursor) : Prop :=
  c.sub_token_offset ≠ 0 ∧ ¬ 2 ≤ data.getD c.byte_offset 0 ∧
    data.getD c.byte_offset 0 = 0

/-- The static `Get` helper: decode a single code unit at the cursor. -/
def Get (tbl : CodeTable) (data : List Nat) (c : Cursor) : Nat :=
  (decode tbl data c 1).getD 0 0

/-- Model of `CompressedSourceCodec::IndexSize` with `kIntSize = 4`. -/
def IndexSize (length : Nat) : Nat := (length / 1024) * 4

/-- Model of `CompressedSourceCodec::ReadIndex`: below the first anchor the offset is
0; otherwise read the 4-byte (little-endian) entry appended after the
compressed data. -/
def ReadIndex (data : List Nat) (pos length : Nat) : Nat :=
  if pos < 1024 then 0
  else
    let base := data.length - IndexSize length
    let entry := pos / 1024 - 1
    data.getD (base + entry * 4) 0 +
      data.getD (base + entry * 4 + 1) 0 * 256 +
      data.getD (base + entry * 4 + 2) 0 * 65536 +
      data.getD (base + entry * 4 + 3) 0 * 16777216

/-- Model of `CompressedSourceCodec::GetCursor`. -/
def GetCursor (tbl : CodeTable) (data : List Nat) (pos length : Nat) :
    Cursor :=
  advanceCursor tbl data ⟨ReadIndex data pos length, 0⟩ (pos % 1024)

/-- Model of `CompressedSource::Decompress(start, length)` on the uncached path: get
a cursor for `start` and decode `length` code units (the ASCII/two-byte
branch only selects the representation of the result, not its value). -/
def decompressRange (tbl : CodeTable) (data : List Nat)
    (charLength start length : Nat) : List Nat :=
  decode tbl data (GetCursor tbl data start charLength) length

/-- The loop of `CompressedSourceCodec::IsAscii`: subtract each token's
`token_lengths` entry from the remaining count, fail on the first Unicode
escape, succeed when the count is exhausted. -/
def isAsciiLoop (tbl : CodeTable) (data : List Nat) :
    Nat → Int → Bool
  | ptr, chars =>
    if h : 0 < chars then
      let code := data.getD ptr 0
      if 2 ≤ code then
        isAsciiLoop tbl data (ptr + 1) (chars - tbl.token_lengths code)
      else if code = 0 then
        isAsciiLoop tbl data (ptr + 2) (chars - tbl.token_lengths code)
      else false
    else true
termination_by ptr chars => chars.toNat
decreasing_by
  · have := tbl.len_pos (data.getD ptr 0); omega
  · have := tbl.len_pos (data.getD ptr 0); omega

/-- Model of `CompressedSourceCodec::IsAscii`. -/
def isAscii (tbl : CodeTable) (data : List Nat) (c : Cursor)
    (chars : Int) : Bool :=
  isAsciiLoop tbl data c.byte_offset (chars + c.sub_token_offset)

/-- The comparison loop of `CompressedSource::SubStringEquals`: compare one
decoded code unit per position, advancing the cursor by one each time. -/
def sseLoop (tbl : CodeTable) (data : List Nat) :
    Cursor → List Nat → Bool
  | _, [] => true
  | c, u :: rest =>
    if Get tbl data c = u then
      sseLoop tbl data (advanceCursor tbl data c 1) rest
    else false

/-- Model of `CompressedSource::SubStringEquals` on the uncached path. -/
def subStringEquals (tbl : CodeTable) (data : List Nat)
    (charLength start : Nat) (other : List Nat) : Bool :=
  if charLength < start + other.length then false
  else sseLoop tbl data (GetCursor tbl data start charLength) other

/-- The loop of `CompressedSource::GetLineNumberSlow`: decode one code unit,
advance by one, count line feeds. -/
def getLineNumberLoop (tbl : CodeTable) (data : List Nat) :
    Nat → Cursor → Nat → Nat
  | 0, _, line => line
  | pos + 1, c, line =>
    getLineNumberLoop tbl data pos (advanceCursor tbl data c 1)
      (if Get tbl data c = 10 then line + 1 else line)

/-- Model of `CompressedSource::GetLineNumberSlow`: positions past `char_length` are
clamped before the walk. -/
def getLineNumberSlow (tbl : CodeTable) (data : List Nat)
    (charLength pos : Nat) : Nat :=
  getLineNumberLoop tbl data (if charLength < pos then charLength else pos)
    ⟨0, 0⟩ 0

/-- Modelled from the spec: the encoder body (`encoder.inc.c`) is not in
the repository.  Per §4.2 the encoder greedily chooses, at each position,
the longest dictionary bytecode whose expansion matches the upcoming
characters, smallest code on ties.  Returns that code, if any. -/
def bestMatch (tbl : CodeTable) (s : List Nat) : Option Nat :=
  (List.range 254).foldl
    (fun best i =>
      let c := i + 2
      if (tbl.expansion c).isPrefixOf s then
        match best with
        | none => some c
        | some b =>
          if (tbl.expansion b).length < (tbl.expansion c).length then some c
          else best
      else best)
    none

/-- The three big-endian payload bytes of a Unicode escape, with the
leading escape code. -/
def unicodeEscapeBytes (cp : Nat) : List Nat :=
  [1, (cp >>> 16) &&& 255, (cp >>> 8) &&& 255, cp &&& 255]

/-- Modelled from the spec: the character loop of the missing
`encoder.inc.c`, per §4.2.  When no bytecode matches, code points 0..127
become ASCII escapes and larger ones Unicode escapes; a UTF-16 surrogate
pair is combined into a single Unicode escape carrying the scalar value. -/
def encodeChars (tbl : CodeTable) : List Nat → List Nat
  | [] => []
  | u :: rest =>
    match bestMatch tbl (u :: rest) with
    | some c =>
      c :: encodeChars tbl ((u :: rest).drop (tbl.expansion c).length)
    | none =>
      if u ≤ 127 then 0 :: u :: encodeChars tbl rest
      else
        match rest with
        | v :: rest2 =>
          if isLeadSurrogateB u ∧ isTrailSurrogateB v then
            unicodeEscapeBytes (combineSurrogatePair u v) ++
              encodeChars tbl rest2
          else unicodeEscapeBytes u ++ encodeChars tbl (v :: rest2)
        | [] => unicodeEscapeBytes u ++ encodeChars tbl []
termination_by s => s.length
decreasing_by
  · have h1 := tbl.len_pos c
    have h2 := tbl.expansion_length c
    simp only [List.length_drop]
    simp only [List.length_cons]
    omega
  · simp
  · simp; omega
  · simp
  · simp

/-- Modelled from the spec: blockwise encoding, so that block boundaries
coincide with token boundaries (§4.2 guarantee (a)). -/
def compressBytes (tbl : CodeTable) (s : List Nat) : List Nat :=
  if h : s = [] then []
  else encodeChars tbl (s.take 1024) ++ compressBytes tbl (s.drop 1024)
termination_by s.length
decreasing_by
  cases s with
  | nil => exact absurd rfl h
  | cons a l => simp; omega

/-- Four little-endian bytes of an index entry. -/
def toLE4 (n : Nat) : List Nat :=
  [n % 256, n / 256 % 256, n / 65536 % 256, n / 16777216 % 256]

/-- Modelled from the spec: `CompressedSource::Compress` produces the
compressed byte stream with the index appended; index entry `i` holds the
byte offset of the token beginning logical position `(i+1)*1024` (§4.2
guarantee (c), §6). -/
def compress (tbl : CodeTable) (s : List Nat) : List Nat :=
  compressBytes tbl s ++
    ((List.range (s.length / 1024)).map
      (fun i => toLE4 (compressBytes tbl (s.take ((i + 1) * 1024))).length)).flatten

/-! ## Production classifier (`src/production-classifier.h`) -/

/-- Model of `ProductionClassifier::TargetProduction` bit values. -/
def ExpressionProduction : Nat := 1

/-- Model of `BindingPatternProduction = 1 << 1`. -/
def BindingPatternProduction : Nat := 2

/-- Model of `ArrowFormalParametersProduction = 1 << 6`. -/
def ArrowFormalParametersProduction : Nat := 64

/-- Model of `StandardProductions = Expression | BindingPattern | AssignmentPattern`. -/
def StandardProductions : Nat := 7

/-- Model of `AllProductions`. -/
def AllProductions : Nat := 127

/-- The 32-bit complement of `ArrowFormalParametersProduction`, as computed
by `~ArrowFormalParametersProduction` on `unsigned`. -/
def notArrowMask : Nat := 4294967295 - 64

/-- Model of `ProductionClassifier::Error`: location, message and argument, modelled
opaquely. -/
structure PError where
  loc : Nat
  msg : Nat
  arg : Nat
deriving DecidableEq, Repr

instance : Inhabited PError := ⟨⟨0, 0, 0⟩⟩

/-- Model of `ProductionClassifier::BufferElement`: a `Leaf` records an invalidated
production set and an error; a `Skip` records an invalidated set and a
backward entry count. -/
inductive BufferElement where
  | leaf (invalid : Nat) (err : PError)
  | skip (invalid : Nat) (count : Nat)
deriving DecidableEq, Repr

instance : Inhabited BufferElement := ⟨.skip 0 0⟩

/-- Model of `BufferElement::invalid_productions()`. -/
def BufferElement.invalid_productions : BufferElement → Nat
  | .leaf p _ => p
  | .skip p _ => p

/-- Model of `BufferElement::skip()`: 0 for a leaf. -/
def BufferElement.skipCount : BufferElement → Nat
  | .leaf _ _ => 0
  | .skip _ n => n

/-- Model of `BufferElement::is_leaf()`. -/
def BufferElement.is_leaf : BufferElement → Bool
  | .leaf _ _ => true
  | .skip _ _ => false

/-- Model of `BufferElement::error()` (only meaningful on a leaf). -/
def BufferElement.error : BufferElement → PError
  | .leaf _ e => e
  | .skip _ _ => default

/-- The backward walk of `ProductionClassifier::Cursor::FindError`, indexed
by the current `end`.  Reaching `end = 0` models the walk running past the
start of the log (`DCHECK(end > 0)` fails, and the following
`buffer_[end - 1]` access is out of bounds); the model returns `none`
there. -/
def findErrorAux (buffer : List BufferElement) (production : Nat) :
    Nat → Option PError
  | 0 => none
  | e + 1 =>
    let idx := e
    let elt := buffer.getD idx default
    if elt.invalid_productions &&& production = 0 then
      if production = ArrowFormalParametersProduction ∧
          elt.invalid_productions &&& BindingPatternProduction ≠ 0 then
        findErrorAux buffer production idx
      else
        findErrorAux buffer production (idx - elt.skipCount)
    else if elt.is_leaf then some elt.error
    else findErrorAux buffer production idx
termination_by e => e
decreasing_by
  · omega
  · omega

/-- Model of `ProductionClassifier::Cursor::FindError`, starting from the end of the
log. -/
def findError (buffer : List BufferElement) (production : Nat) :
    Option PError :=
  findErrorAux buffer production buffer.length

/-- Model of `ProductionClassifier::Cursor` state: the log length captured at scope
entry, and the cursor's own invalidated-production set. -/
structure PCursor where
  start : Nat
  invalid_productions : Nat
deriving DecidableEq, Repr

/-- Model of `Cursor::is_valid`. -/
def PCursor.is_valid (c : PCursor) (production : Nat) : Bool :=
  c.invalid_productions &&& production == 0

/-- Model of `ProductionClassifier::push`. -/
def classifierPush (buffer : List BufferElement) : PCursor :=
  ⟨buffer.length, 0⟩

/-- Model of `Cursor::RecordError`: idempotent per production within a scope — only
the first record appends a leaf. -/
def recordError (buffer : List BufferElement) (c : PCursor)
    (production : Nat) (e : PError) : List BufferElement × PCursor :=
  if ¬ c.is_valid production then (buffer, c)
  else (buffer ++ [.leaf production e],
    ⟨c.start, c.invalid_productions ||| production⟩)

/-- Model of `ProductionClassifier::pop`: with nothing recorded the log is truncated
back to the scope start, otherwise a single `Skip` entry summarizing the
scope is appended. -/
def classifierPop (buffer : List BufferElement) (c : PCursor) :
    List BufferElement :=
  if buffer.length = c.start then buffer
  else if c.invalid_productions = 0 then buffer.take c.start
  else buffer ++ [.skip c.invalid_productions (buffer.length - c.start)]

/-- The invalidated-set update of `Cursor::Accumulate`. -/
def accumulateInvalid (outer inner productions : Nat) : Nat :=
  if inner = 0 then outer
  else
    let errors := (productions &&& notArrowMask) &&& (inner &&& notArrowMask)
    let o1 := outer ||| errors
    if productions &&& ArrowFormalParametersProduction ≠ 0 ∧
        inner &&& BindingPatternProduction ≠ 0 then
      o1 ||| ArrowFormalParametersProduction
    else o1

/-- Model of `Cursor::Accumulate`: propagate the inner cursor's invalidations into
the outer cursor, restricted to `productions`. -/
def accumulateCursor (outer inner : PCursor) (productions : Nat) : PCursor :=
  ⟨outer.start, accumulateInvalid outer.invalid_productions
    inner.invalid_productions productions⟩

/-! ### Scope trees

A well-formed classifier log is the serialization of a forest of scopes: a
`Leaf` entry per recorded error, and each collapsed scope serialized as its
contents followed by a `Skip` entry counting them. -/

mutual
/-- A node of the scope forest: a recorded error, or a collapsed scope with
its summary set and contents. -/
inductive SNode where
  | leafN (invalid : Nat) (err : PError) : SNode
  | scopeN (invalid : Nat) (children : SForest) : SNode

/-- A forest of scope nodes, kept in snoc order (last node outermost on the
right), matching the backward walk. -/
inductive SForest where
  | nilF : SForest
  | consF (init : SForest) (last : SNode) : SForest
end

mutual
/-- Serialization of a scope node into log entries. -/
def serN : SNode → List BufferElement
  | .leafN p e => [.leaf p e]
  | .scopeN p cs => serF cs ++ [.skip p (serF cs).length]

/-- Serialization of a scope forest. -/
def serF : SForest → List BufferElement
  | .nilF => []
  | .consF init last => serF init ++ serN last
end

mutual
/-- Reference search over a scope node, mirroring which scopes the backward
walk enters: a leaf yields its error iff its set contains the production; a
collapsed scope is entered iff its set contains the production, or contains
`BindingPattern` when searching for `ArrowFormalParameters`. -/
def findN (production : Nat) : SNode → Option PError
  | .leafN p e =>
    if p &&& production ≠ 0 then some e else none
  | .scopeN p cs =>
    if p &&& production ≠ 0 ∨
        (production = ArrowFormalParametersProduction ∧
          p &&& BindingPatternProduction ≠ 0) then
      findF production cs
    else none

/-- Reference search over a forest, from the most recent node backward. -/
def findF (production : Nat) : SForest → Option PError
  | .nilF => none
  | .consF init last =>
    match findN production last with
    | some e => some e
    | none => findF production init
end

/-! ### Operation scripts

The classifier is driven by a stack discipline: a `Cursor` is created on
scope entry, `RecordError` appends leaves for the innermost cursor,
`Accumulate` optionally propagates the inner invalidations on scope exit,
and the destructor `pop` collapses the scope.  A `ScopeList` captures an
arbitrary such usage: a sequence of record actions and nested scopes. -/

mutual
/-- One classifier action in a scope: record an error for a production on
the current cursor, or run a nested scope (entered with `push`, left with
`pop`, optionally accumulated into the current cursor with the given
production mask). -/
inductive ScopeItem where
  | record (production : Nat) (e : PError) : ScopeItem
  | nested (items : ScopeList) (mask : Option Nat) : ScopeItem

/-- A sequence of classifier actions, executed left to right. -/
inductive ScopeList where
  | snil : ScopeList
  | scons (head : ScopeItem) (tail : ScopeList) : ScopeList
end

mutual
/-- Execute one classifier action on the log and the current cursor, per
the source operations `RecordError`, `push`, `Accumulate` and `pop`. -/
def runItem : ScopeItem → List BufferElement → PCursor →
    List BufferElement × PCursor
  | .record p e, buf, c => recordError buf c p e
  | .nested items mask, buf, c =>
    match runItems items buf (classifierPush buf) with
    | (buf1, inner1) =>
      (classifierPop buf1 inner1,
        match mask with
        | some m => accumulateCursor c inner1 m
        | none => c)

/-- Execute a sequence of classifier actions in order. -/
def runItems : ScopeList → List BufferElement → PCursor →
    List BufferElement × PCursor
  | .snil, buf, c => (buf, c)
  | .scons item rest, buf, c =>
    match runItem item buf c with
    | (buf1, c1) => runItems rest buf1 c1
end

mutual
/-- The scope-forest meaning of one action, given the current cursor's
invalidated set: the node it appends to the enclosing scope (if any) and
the updated set.  A record appends a leaf only when its production was
still valid; a nested scope appends a collapsed-scope node unless its
region is empty or its cursor recorded nothing. -/
def forestItem : ScopeItem → Nat → Option SNode × Nat
  | .record p e, acc =>
    if acc &&& p = 0 then (some (.leafN p e), acc ||| p)
    else (none, acc)
  | .nested items mask, acc =>
    match forestItemsAux items .nilF 0 with
    | (F, inv) =>
      ((if serF F = [] then none
        else if inv = 0 then none
        else some (.scopeN inv F)),
        match mask with
        | some m => accumulateInvalid acc inv m
        | none => acc)

/-- The scope forest a sequence of actions appends, accumulated onto `F`,
together with the cursor's final invalidated set. -/
def forestItemsAux : ScopeList → SForest → Nat → SForest × Nat
  | .snil, F, acc => (F, acc)
  | .scons item rest, F, acc =>
    match forestItem item acc with
    | (none, acc1) => forestItemsAux rest F acc1
    | (some n, acc1) => forestItemsAux rest (.consF F n) acc1
end

/-- Whether a token is a Unicode escape. -/
def Token.isUnicodeEscape : Token → Bool
  | .unicodeTok _ _ _ => true
  | _ => false

/-- Written from the spec (§4.6, `IsAscii`): some Unicode-escape token
contributes at least one code unit to the code-unit range `[lo, hi)`,
positions counted from the start of the token sequence. -/
def unicodeContributesB (tbl : CodeTable) (ts : List Token)
    (lo hi : Nat) : Bool :=
  (List.range ts.length).any (fun k =>
    (ts.getD k (.byteTok 2)).isUnicodeEscape &&
      decide (max lo (dlenSum tbl (ts.take k)) <
        min hi (dlenSum tbl (ts.take k) +
          ((ts.getD k (.byteTok 2)).units tbl).length)))

/-! ## Theorems -/

/-- C2.  The code disagrees with the claim at code point `0xFFFF`:
`uc16_length` uses a strict comparison against `kMaxNonSurrogateCharCode`,
so a Unicode escape encoding exactly `0xFFFF` is charged 2 logical
characters by `AdvanceCursor`, while `write_as_utf16` emits a single code
unit for it (and the claim says it counts as one).  Evaluated at the
payload `(0x00, 0xFF, 0xFF)`: `uc16_length` returns 2, the decoder writes
1 unit, and `AdvanceCursor` over the escape by one character stops
mid-token instead of on the token boundary. -/
theorem uc16_length_ffff_bug :
    uc16_length 0 255 255 = 2 ∧
      (write_as_utf16 (decode_unicode 0 255 255) 9).2 = 1 ∧
      advanceCursor simpleTable [1, 0, 255, 255] ⟨0, 0⟩ 1 = ⟨0, 1⟩ := by
  refine ⟨by decide, by decide, ?_⟩
  simp [advanceCursor, advLoop, uc16_length, decode_unicode, simpleTable,
    kMaxNonSurrogateCharCode]

/-- C10.  Under the cursor invariant
`sub_token_offset < token_lengths[data[byte_offset]]` (ASCII escapes have
token length 1), the `UNREACHABLE()` ASCII-escape branch of `Decode`'s
partial-first-token phase cannot execute. -/
theorem decode_ascii_branch_unreachable (tbl : CodeTable) (data : List Nat)
    (c : Cursor)
    (hinv : c.sub_token_offset < tbl.token_lengths (data.getD c.byte_offset 0)) :
    ¬ decodeAsciiUnreachableHit data c := by
  rintro ⟨hsub, -, hzero⟩
  rw [hzero, tbl.len_ascii] at hinv
  omega

theorem decode_ascii_branch_unreachable_witness :
    (⟨0, 0⟩ : Cursor).sub_token_offset <
        simpleTable.token_lengths ([2, 3].getD (⟨0, 0⟩ : Cursor).byte_offset 0) ∧
      ¬ decodeAsciiUnreachableHit [2, 3] ⟨0, 0⟩ :=
  ⟨by decide, decode_ascii_branch_unreachable simpleTable [2, 3] ⟨0, 0⟩ (by decide)⟩

theorem and_sixtyfour_eq_zero (x : Nat) :
    x &&& 64 = 0 ↔ x.testBit 6 = false := by
  have h64 : (64 : Nat) = 2 ^ 6 := by norm_num
  rw [h64, Nat.and_two_pow]
  cases x.testBit 6 <;> simp

theorem and_two_eq_zero (x : Nat) :
    x &&& 2 = 0 ↔ x.testBit 1 = false := by
  have h2 : (2 : Nat) = 2 ^ 1 := by norm_num
  rw [h2, Nat.and_two_pow]
  cases x.testBit 1 <;> simp

/-- C6.  After `Accumulate(inner, productions)` with
`ArrowFormalParametersProduction` in `productions`, the outer cursor is
valid for arrow formal parameters iff it was valid before and the inner
cursor is a valid binding pattern; in particular the inner cursor's own
arrow invalidation alone does not arrow-invalidate the outer. -/
theorem accumulate_arrow_valid (outer inner productions : Nat)
    (h : productions &&& ArrowFormalParametersProduction ≠ 0) :
    accumulateInvalid outer inner productions &&&
        ArrowFormalParametersProduction = 0 ↔
      (outer &&& ArrowFormalParametersProduction = 0 ∧
        inner &&& BindingPatternProduction = 0) := by
  rw [ArrowFormalParametersProduction] at *
  rw [BindingPatternProduction]
  unfold accumulateInvalid
  rw [ArrowFormalParametersProduction, BindingPatternProduction]
  split
  · rename_i hz
    subst hz
    simp [and_sixtyfour_eq_zero, and_two_eq_zero, Nat.zero_testBit]
  · dsimp only
    split
    · rename_i hc
      constructor
      · intro habs
        rw [and_sixtyfour_eq_zero] at habs
        simp [Nat.testBit_lor] at habs
        exact absurd habs.2 (by decide)
      · rintro ⟨-, hbp⟩
        exact absurd hbp hc.2
    · rename_i hc
      rw [not_and_or] at hc
      have hbp : inner &&& 2 = 0 := by
        rcases hc with hc | hc
        · exact absurd h hc
        · exact not_ne_iff.mp hc
      rw [and_sixtyfour_eq_zero, and_sixtyfour_eq_zero]
      have hmask : notArrowMask.testBit 6 = false := by decide
      simp [Nat.testBit_lor, Nat.testBit_land, hmask, hbp]

theorem accumulate_arrow_valid_witness :
    ((127 : Nat) &&& ArrowFormalParametersProduction ≠ 0) ∧
      (accumulateInvalid 0 2 127 &&& ArrowFormalParametersProduction = 0 ↔
        ((0 : Nat) &&& ArrowFormalParametersProduction = 0 ∧
          (2 : Nat) &&& BindingPatternProduction = 0)) :=
  ⟨by decide, accumulate_arrow_valid 0 2 127 (by decide)⟩

/-- C4 counterexample, through the operational model: the outer scope
records error `⟨1,1,1⟩` for `ExpressionProduction`; a nested inner scope
later records `⟨2,2,2⟩` for the same production, is accumulated with the
standard mask and collapsed by `pop`.  The final cursor has Expression
invalid (the `FindError` precondition), yet `FindError` returns the inner,
later-recorded error, not the outer, earlier-recorded one as the claim
states. -/
theorem findError_most_recent_run_cex :
    (runItems (ScopeList.scons (ScopeItem.record ExpressionProduction
          ⟨1, 1, 1⟩)
        (ScopeList.scons (ScopeItem.nested
          (ScopeList.scons (ScopeItem.record ExpressionProduction ⟨2, 2, 2⟩)
            ScopeList.snil)
          (some StandardProductions)) ScopeList.snil)) [] ⟨0, 0⟩).2.is_valid
        ExpressionProduction = false ∧
      findError (runItems (ScopeList.scons (ScopeItem.record
            ExpressionProduction ⟨1, 1, 1⟩)
          (ScopeList.scons (ScopeItem.nested
            (ScopeList.scons (ScopeItem.record ExpressionProduction
              ⟨2, 2, 2⟩) ScopeList.snil)
            (some StandardProductions)) ScopeList.snil)) [] ⟨0, 0⟩).1
          ExpressionProduction = some ⟨2, 2, 2⟩ ∧
      (⟨2, 2, 2⟩ : PError) ≠ ⟨1, 1, 1⟩ := by
  refine ⟨by decide, ?_, by decide⟩
  simp [runItems, runItem, classifierPush, recordError, classifierPop,
    accumulateCursor, accumulateInvalid, findError, findErrorAux,
    PCursor.is_valid, ExpressionProduction, StandardProductions, notArrowMask,
    BufferElement.invalid_productions, BufferElement.skipCount,
    BufferElement.is_leaf, BufferElement.error, ArrowFormalParametersProduction,
    BindingPatternProduction]

/-- C5.  An inner scope records only a `BindingPattern` error; `Accumulate`
with all productions then arrow-invalidates the outer cursor, and the inner
scope is collapsed to a `Skip{BindingPattern}` entry.  The precondition of
`FindError(ArrowFormalParameters)` holds (`is_valid` is false), yet the
backward walk steps past the `BindingPattern` leaf (the arrow hack sets
`end = idx` on leaves too) and runs past the start of the log — modelled as
`none`; in the C++ code `DCHECK(end > 0)` fails and `buffer_[end - 1]`
underflows. -/
theorem findError_arrow_runs_past_start :
    (let inner0 := classifierPush []
     let r := recordError [] inner0 BindingPatternProduction ⟨1, 1, 1⟩
     let outer := accumulateCursor (classifierPush []) r.2 AllProductions
     let buf := classifierPop r.1 r.2
     outer.is_valid ArrowFormalParametersProduction = false ∧
       findError buf ArrowFormalParametersProduction = none) := by
  constructor
  · decide
  · simp [classifierPush, recordError, classifierPop, findError,
      findErrorAux, PCursor.is_valid, BindingPatternProduction,
      ArrowFormalParametersProduction, BufferElement.invalid_productions,
      BufferElement.skipCount, BufferElement.is_leaf, BufferElement.error,
      show ((2 : Nat) &&& 64 = 0) from by decide,
      show ¬((2 : Nat) &&& 2 = 0) from by decide]

theorem getD_at_append (pre rest : List BufferElement) :
    (pre ++ rest).getD pre.length default = rest.getD 0 default := by
  rw [List.getD_append_right _ _ _ _ (Nat.le_refl _)]
  simp

mutual

/-- The backward walk started just past the serialization of a scope node
either returns the node's reference search result, or continues just before
the node. -/
theorem findErrorAux_serN (production : Nat) (n : SNode)
    (pre post : List BufferElement) :
    findErrorAux (pre ++ (serN n ++ post)) production
        (pre.length + (serN n).length) =
      (match findN production n with
        | some e => some e
        | none =>
          findErrorAux (pre ++ (serN n ++ post)) production pre.length) := by
  cases n with
  | leafN p e =>
    have hget : (pre ++ (serN (SNode.leafN p e) ++ post)).getD pre.length
        default = BufferElement.leaf p e := by
      rw [getD_at_append]
      simp [serN]
    have hlen : (serN (SNode.leafN p e)).length = 1 := by simp [serN]
    rw [hlen]
    rw [findErrorAux]
    simp only [hget]
    by_cases hp : p &&& production = 0
    · simp only [BufferElement.invalid_productions, hp, if_pos rfl,
        BufferElement.skipCount, Nat.sub_zero, ite_self]
      have hfn : findN production (SNode.leafN p e) = none := by
        simp [findN, hp]
      rw [hfn]
      simp
    · simp only [BufferElement.invalid_productions, hp, if_neg hp,
        BufferElement.is_leaf, if_pos rfl, BufferElement.error]
      have hfn : findN production (SNode.leafN p e) = some e := by
        simp [findN, hp]
      rw [hfn]
      simp
  | scopeN p cs =>
    have hassoc : pre ++ (serN (SNode.scopeN p cs) ++ post) =
        pre ++ (serF cs ++
          ([BufferElement.skip p (serF cs).length] ++ post)) := by
      simp [serN, List.append_assoc]
    have hget : (pre ++ (serN (SNode.scopeN p cs) ++ post)).getD
        (pre.length + (serF cs).length) default =
        BufferElement.skip p (serF cs).length := by
      rw [hassoc, ← List.append_assoc]
      have h2 : (pre ++ serF cs).length = pre.length + (serF cs).length := by
        simp
      rw [← h2, getD_at_append]
      simp
    have hlen : (serN (SNode.scopeN p cs)).length = (serF cs).length + 1 := by
      simp [serN]
    rw [hlen, ← Nat.add_assoc]
    rw [findErrorAux]
    simp only [hget]
    have hsub : findErrorAux (pre ++ (serN (SNode.scopeN p cs) ++ post))
        production (pre.length + (serF cs).length) =
        (match findF production cs with
          | some e => some e
          | none =>
            findErrorAux (pre ++ (serN (SNode.scopeN p cs) ++ post))
              production pre.length) := by
      rw [hassoc]
      exact findErrorAux_serF production cs pre
        ([BufferElement.skip p (serF cs).length] ++ post)
    by_cases hp : p &&& production = 0
    · by_cases hh : production = ArrowFormalParametersProduction ∧
          p &&& BindingPatternProduction ≠ 0
      · simp only [BufferElement.invalid_productions, hp, if_pos rfl,
          if_pos hh]
        rw [hsub]
        have hfn : findN production (SNode.scopeN p cs) =
            findF production cs := by
          simp only [findN]
          rw [if_pos (Or.inr hh)]
        rw [hfn]
        cases findF production cs <;> rfl
      · simp only [BufferElement.invalid_productions, hp, if_pos rfl,
          if_neg hh, BufferElement.skipCount, Nat.add_sub_cancel]
        have hfn : findN production (SNode.scopeN p cs) = none := by
          simp only [findN]
          rw [if_neg]
          rintro (hc | hc)
          · exact hc hp
          · exact hh hc
        rw [hfn]
        simp
    · simp only [BufferElement.invalid_productions, hp, if_neg hp,
        BufferElement.is_leaf, Bool.false_eq_true, if_neg
          (by simp : ¬ (false = true))]
      rw [hsub]
      have hfn : findN production (SNode.scopeN p cs) =
          findF production cs := by
        simp only [findN]
        rw [if_pos (Or.inl hp)]
      rw [hfn]
      cases findF production cs <;> rfl

/-- The backward walk started just past the serialization of a forest
either returns the forest's reference search result, or continues just
before the forest. -/
theorem findErrorAux_serF (production : Nat) (F : SForest)
    (pre post : List BufferElement) :
    findErrorAux (pre ++ (serF F ++ post)) production
        (pre.length + (serF F).length) =
      (match findF production F with
        | some e => some e
        | none =>
          findErrorAux (pre ++ (serF F ++ post)) production pre.length) := by
  cases F with
  | nilF => simp [serF, findF]
  | consF init last =>
    have hassoc : pre ++ (serF (SForest.consF init last) ++ post) =
        (pre ++ serF init) ++ (serN last ++ post) := by
      simp [serF, List.append_assoc]
    have hlen : (serF (SForest.consF init last)).length =
        (serF init).length + (serN last).length := by
      simp [serF]
    rw [hlen, ← Nat.add_assoc]
    have hlen2 : pre.length + (serF init).length =
        (pre ++ serF init).length := by simp
    rw [hassoc, hlen2]
    rw [findErrorAux_serN production last (pre ++ serF init) post]
    have htail : findErrorAux ((pre ++ serF init) ++ (serN last ++ post))
        production (pre ++ serF init).length =
        (match findF production init with
          | some e => some e
          | none =>
            findErrorAux ((pre ++ serF init) ++ (serN last ++ post))
              production pre.length) := by
      rw [List.append_assoc, ← hlen2]
      exact findErrorAux_serF production init pre (serN last ++ post)
    simp only [findF]
    cases hn : findN production last with
    | some e => rfl
    | none =>
      rw [htail]

end

/-- On a log that is the serialization of a forest of scopes, `FindError`
computes the reference search `findF`: the error of the most recently
recorded live leaf for the production, entering collapsed scopes whose
summary set contains the production (or `BindingPattern` when searching
for `ArrowFormalParameters`) and skipping the rest. -/
theorem findError_eq_findF (production : Nat) (F : SForest) :
    findError (serF F) production = findF production F := by
  have h := findErrorAux_serF production F [] []
  simp only [List.nil_append, List.append_nil, List.length_nil,
    Nat.zero_add] at h
  rw [findError, h]
  cases findF production F with
  | some e => rfl
  | none => rw [findErrorAux]

mutual

/-- Running one classifier action from any log and cursor appends exactly
the serialization of the action's forest node (when there is one) and
updates the cursor's invalidated set per the forest semantics; the
cursor's start never moves. -/
theorem runItem_ser (item : ScopeItem) (buf : List BufferElement)
    (c : PCursor) :
    runItem item buf c =
      ((match (forestItem item c.invalid_productions).1 with
        | none => buf
        | some n => buf ++ serN n),
        ⟨c.start, (forestItem item c.invalid_productions).2⟩) := by
  cases item with
  | record p e =>
    obtain ⟨st, inv⟩ := c
    dsimp only
    by_cases hv : inv &&& p = 0
    · have hFI : forestItem (.record p e) inv = (some (.leafN p e), inv ||| p) := by
        rw [forestItem, if_pos hv]
      rw [runItem, hFI, recordError]
      rw [if_neg (by simp [PCursor.is_valid, hv])]
      rfl
    · have hFI : forestItem (.record p e) inv = (none, inv) := by
        rw [forestItem, if_neg hv]
      rw [runItem, hFI, recordError]
      rw [if_pos (by simp [PCursor.is_valid, hv])]
  | nested items mask =>
    obtain ⟨st, inv⟩ := c
    dsimp only
    have h := runItems_ser items buf SForest.nilF ⟨buf.length, 0⟩
    rw [show serF SForest.nilF = [] from rfl, List.append_nil] at h
    dsimp only at h
    rcases hFA : forestItemsAux items SForest.nilF 0 with ⟨Fin, invIn⟩
    rw [hFA] at h
    dsimp only at h
    have hFI : forestItem (.nested items mask) inv =
        ((if serF Fin = [] then none else if invIn = 0 then none
          else some (.scopeN invIn Fin)),
          match mask with
          | some m => accumulateInvalid inv invIn m
          | none => inv) := by
      rw [forestItem, hFA]
    rw [runItem, show classifierPush buf = (⟨buf.length, 0⟩ : PCursor) from rfl,
      h, hFI]
    dsimp only
    rw [classifierPop]
    dsimp only
    by_cases hser : serF Fin = []
    · rw [hser, List.append_nil, if_pos rfl, if_pos rfl]
      cases mask with
      | none => rfl
      | some m => rfl
    · have hne : ¬ (buf ++ serF Fin).length = buf.length := by
        rw [List.length_append]
        intro hh
        exact hser (List.eq_nil_of_length_eq_zero (by omega))
      rw [if_neg hne, if_neg hser]
      by_cases hinv : invIn = 0
      · rw [if_pos hinv, if_pos hinv, List.take_left]
        cases mask with
        | none => rfl
        | some m => rfl
      · rw [if_neg hinv, if_neg hinv]
        have hskip : (buf ++ serF Fin).length - buf.length =
            (serF Fin).length := by
          rw [List.length_append]; omega
        rw [hskip, List.append_assoc]
        cases mask with
        | none => rfl
        | some m => rfl

/-- Running a sequence of classifier actions from a log `buf ++ serF F`
extends the serialized forest by the actions' forest nodes and updates the
cursor's invalidated set per the forest semantics. -/
theorem runItems_ser (items : ScopeList) (buf : List BufferElement)
    (F : SForest) (c : PCursor) :
    runItems items (buf ++ serF F) c =
      (buf ++ serF (forestItemsAux items F c.invalid_productions).1,
        ⟨c.start, (forestItemsAux items F c.invalid_productions).2⟩) := by
  cases items with
  | snil =>
    obtain ⟨st, inv⟩ := c
    rw [runItems, forestItemsAux]
  | scons item rest =>
    obtain ⟨st, inv⟩ := c
    dsimp only
    rw [runItems, runItem_ser item (buf ++ serF F) ⟨st, inv⟩]
    dsimp only
    rcases hFI : forestItem item inv with ⟨nopt, acc1⟩
    dsimp only
    rw [forestItemsAux, hFI]
    cases nopt with
    | none =>
      dsimp only
      rw [runItems_ser rest buf F ⟨st, acc1⟩]
    | some n =>
      dsimp only
      rw [show (buf ++ serF F) ++ serN n = buf ++ serF (SForest.consF F n)
        from by rw [List.append_assoc]; rw [serF]]
      rw [runItems_ser rest buf (SForest.consF F n) ⟨st, acc1⟩]

end

/-- C4 (amended).  For every nesting of classifier scopes and every
sequence of recorded errors — any action script run from the empty log —
the log `FindError` searches is the serialization of the corresponding
scope forest, and `FindError(P)` returns the reference search `findF` on
that forest: the error of the *most recently* recorded live leaf for `P`
in depth-first order (the backward walk enters collapsed scopes whose
summary set contains `P`, or `BindingPattern` when `P` is
`ArrowFormalParameters`, and skips the rest), not the first recorded error
as the claim states. -/
theorem findError_run_eq_findF (items : ScopeList) (production : Nat) :
    findError (runItems items [] ⟨0, 0⟩).1 production =
      findF production (forestItemsAux items SForest.nilF 0).1 := by
  have h := runItems_ser items [] SForest.nilF ⟨0, 0⟩
  rw [show serF SForest.nilF = [] from rfl] at h
  simp only [List.nil_append] at h
  rw [h]
  exact findError_eq_findF production _

theorem getD_append_add (pre l2 : List Nat) (i : Nat) :
    (pre ++ l2).getD (pre.length + i) 0 = l2.getD i 0 := by
  rw [List.getD_append_right _ _ _ _ (Nat.le_add_right _ _)]
  simp

theorem tokensBytes_cons (t : Token) (ts : List Token) :
    tokensBytes (t :: ts) = t.bytes ++ tokensBytes ts := by
  simp [tokensBytes]

theorem alenSum_cons (tbl : CodeTable) (t : Token) (ts : List Token) :
    alenSum tbl (t :: ts) = t.alen tbl + alenSum tbl ts := by
  simp [alenSum]

/-- The `AdvanceCursor` loop, started at a token boundary of a well-formed
stream with `charsW ≤ chars` characters already consumed and the remaining
target within the remaining tokens, computes the reference advance. -/
theorem advLoop_spec (tbl : CodeTable) (ts : List Token)
    (hwf : ∀ t ∈ ts, t.wf) (post : List Nat) :
    ∀ (pre : List Nat) (chars charsW prevB prevC : Nat),
      charsW ≤ chars → chars - charsW ≤ alenSum tbl ts →
      advLoop tbl (pre ++ (tokensBytes ts ++ post)) chars pre.length charsW
          prevB prevC
        = refAdvance tbl ts pre.length (chars - charsW) := by
  induction ts with
  | nil =>
    intro pre chars charsW prevB prevC h1 h2
    simp only [alenSum, List.map_nil, List.sum_nil, Nat.le_zero] at h2
    have heq : charsW = chars := by omega
    rw [advLoop]
    rw [dif_neg (by omega), if_pos heq]
    simp [refAdvance]
  | cons t ts ih =>
    intro pre chars charsW prevB prevC h1 h2
    by_cases hcc : charsW = chars
    · rw [advLoop, dif_neg (by omega), if_pos hcc]
      have : chars - charsW = 0 := by omega
      rw [this]
      simp [refAdvance]
    · have hlt : charsW < chars := by omega
      have hwft : t.wf := hwf t (List.mem_cons_self t ts)
      have hwfr : ∀ u ∈ ts, u.wf := fun u hu => hwf u (List.mem_cons_of_mem t hu)
      have hdata : pre ++ (tokensBytes (t :: ts) ++ post) =
          pre ++ (t.bytes ++ (tokensBytes ts ++ post)) := by
        rw [tokensBytes_cons, List.append_assoc]
      have hdata2 : pre ++ (t.bytes ++ (tokensBytes ts ++ post)) =
          (pre ++ t.bytes) ++ (tokensBytes ts ++ post) := by
        rw [List.append_assoc]
      have hn0 : chars - charsW ≠ 0 := by omega
      -- one iteration of the loop consumes the head token
      have hstep : advLoop tbl (pre ++ (tokensBytes (t :: ts) ++ post)) chars
          pre.length charsW prevB prevC =
          advLoop tbl (pre ++ (tokensBytes (t :: ts) ++ post)) chars
            (pre.length + t.bytes.length) (charsW + t.alen tbl)
            pre.length charsW := by
        cases t with
        | asciiTok b =>
          have hcode : (pre ++ (tokensBytes (Token.asciiTok b :: ts) ++
              post)).getD pre.length 0 = 0 := by
            rw [hdata]
            have := getD_append_add pre
              ((Token.asciiTok b).bytes ++ (tokensBytes ts ++ post)) 0
            simpa [Token.bytes] using this
          rw [advLoop, dif_pos hlt, hcode]
          rw [if_neg (by omega), if_pos rfl]
          simp [Token.bytes, Token.alen]
        | unicodeTok b0 b1 b2 =>
          have hc0 : (pre ++ (tokensBytes (Token.unicodeTok b0 b1 b2 :: ts) ++
              post)).getD pre.length 0 = 1 := by
            rw [hdata]
            have := getD_append_add pre
              ((Token.unicodeTok b0 b1 b2).bytes ++ (tokensBytes ts ++ post)) 0
            simpa [Token.bytes] using this
          have hc1 : (pre ++ (tokensBytes (Token.unicodeTok b0 b1 b2 :: ts) ++
              post)).getD (pre.length + 1) 0 = b0 := by
            rw [hdata]
            have := getD_append_add pre
              ((Token.unicodeTok b0 b1 b2).bytes ++ (tokensBytes ts ++ post)) 1
            simpa [Token.bytes] using this
          have hc2 : (pre ++ (tokensBytes (Token.unicodeTok b0 b1 b2 :: ts) ++
              post)).getD (pre.length + 2) 0 = b1 := by
            rw [hdata]
            have := getD_append_add pre
              ((Token.unicodeTok b0 b1 b2).bytes ++ (tokensBytes ts ++ post)) 2
            simpa [Token.bytes] using this
          have hc3 : (pre ++ (tokensBytes (Token.unicodeTok b0 b1 b2 :: ts) ++
              post)).getD (pre.length + 3) 0 = b2 := by
            rw [hdata]
            have := getD_append_add pre
              ((Token.unicodeTok b0 b1 b2).bytes ++ (tokensBytes ts ++ post)) 3
            simpa [Token.bytes] using this
          rw [advLoop, dif_pos hlt, hc0, hc1, hc2, hc3]
          rw [if_neg (by omega), if_neg (by omega)]
          simp [Token.bytes, Token.alen, Nat.add_assoc]
        | byteTok c =>
          have hge : 2 ≤ c := hwft.1
          have hcode : (pre ++ (tokensBytes (Token.byteTok c :: ts) ++
              post)).getD pre.length 0 = c := by
            rw [hdata]
            have := getD_append_add pre
              ((Token.byteTok c).bytes ++ (tokensBytes ts ++ post)) 0
            simpa [Token.bytes] using this
          rw [advLoop, dif_pos hlt, hcode]
          rw [if_pos hge]
          simp [Token.bytes, Token.alen]
      rw [hstep]
      rw [alenSum_cons] at h2
      by_cases hfits : charsW + t.alen tbl ≤ chars
      · -- the whole head token is consumed; recurse
        have happ : pre ++ (tokensBytes (t :: ts) ++ post) =
            (pre ++ t.bytes) ++ (tokensBytes ts ++ post) := by
          rw [hdata, hdata2]
        have hpl : pre.length + t.bytes.length = (pre ++ t.bytes).length := by
          simp
        rw [happ, hpl]
        rw [ih hwfr (pre ++ t.bytes) chars (charsW + t.alen tbl) pre.length
          charsW hfits (by omega)]
        rw [refAdvance]
        rw [if_neg hn0, if_pos (by omega)]
        have : chars - charsW - t.alen tbl = chars - (charsW + t.alen tbl) := by
          omega
        rw [this, ← hpl]
      · -- overshoot: the loop exits and reports the saved previous state
        have hgt : ¬ charsW + t.alen tbl < chars := by omega
        have hne : ¬ charsW + t.alen tbl = chars := by omega
        rw [advLoop, dif_neg hgt, if_neg hne]
        rw [refAdvance, if_neg hn0, if_neg (by omega)]

theorem tokensBytes_append (l1 l2 : List Token) :
    tokensBytes (l1 ++ l2) = tokensBytes l1 ++ tokensBytes l2 := by
  simp [tokensBytes]

theorem alenSum_append (tbl : CodeTable) (l1 l2 : List Token) :
    alenSum tbl (l1 ++ l2) = alenSum tbl l1 + alenSum tbl l2 := by
  simp [alenSum]

/-- Advancing over a token-boundary prefix splits off: the reference
advance from the stream start by (characters of the first `i` tokens plus
`r`) equals the reference advance by `r` from token `i`. -/
theorem refAdvance_shift (tbl : CodeTable) :
    ∀ (i : Nat) (ts : List Token) (b0 r : Nat), i ≤ ts.length →
      refAdvance tbl ts b0 (alenSum tbl (ts.take i) + r) =
        refAdvance tbl (ts.drop i)
          (b0 + (tokensBytes (ts.take i)).length) r := by
  intro i
  induction i with
  | zero => intro ts b0 r _; simp [alenSum, tokensBytes]
  | succ i ih =>
    intro ts b0 r hi
    cases ts with
    | nil => simp at hi
    | cons t ts =>
      rw [List.take_succ_cons, List.drop_succ_cons, alenSum_cons,
        tokensBytes_cons]
      have h1 : 1 ≤ t.alen tbl := Token.one_le_alen tbl t
      rw [refAdvance]
      rw [if_neg (by omega), if_pos (by omega)]
      have harith : t.alen tbl + alenSum tbl (ts.take i) + r - t.alen tbl =
          alenSum tbl (ts.take i) + r := by omega
      rw [harith]
      rw [ih ts (b0 + t.bytes.length) r (by simpa using hi)]
      have : b0 + t.bytes.length + (tokensBytes (ts.take i)).length =
          b0 + (t.bytes ++ tokensBytes (ts.take i)).length := by
        simp [Nat.add_assoc]
      rw [this]

/-- The result of a reference advance within bounds is a valid cursor: it
sits at a token boundary `j` with a sub-token offset below that token's
character count, at the advanced position. -/
theorem refAdvance_cursorAt (tbl : CodeTable) :
    ∀ (ts : List Token) (b0 n : Nat), n ≤ alenSum tbl ts →
      ∃ j s, j ≤ ts.length ∧
        refAdvance tbl ts b0 n = ⟨b0 + (tokensBytes (ts.take j)).length, s⟩ ∧
        alenSum tbl (ts.take j) + s = n ∧
        (s = 0 ∨ ∃ h : j < ts.length, s < (ts.get ⟨j, h⟩).alen tbl) := by
  intro ts
  induction ts with
  | nil =>
    intro b0 n hn
    simp only [alenSum, List.map_nil, List.sum_nil, Nat.le_zero] at hn
    subst hn
    exact ⟨0, 0, by simp [refAdvance, alenSum, tokensBytes]⟩
  | cons t ts ih =>
    intro b0 n hn
    by_cases hz : n = 0
    · subst hz
      refine ⟨0, 0, by omega, ?_, by simp [alenSum], Or.inl rfl⟩
      rw [refAdvance, if_pos rfl]
      simp [tokensBytes]
    · by_cases hfits : t.alen tbl ≤ n
      · rw [alenSum_cons] at hn
        obtain ⟨j, s, hj, heq, hpos, hval⟩ :=
          ih (b0 + t.bytes.length) (n - t.alen tbl) (by omega)
        refine ⟨j + 1, s, by simpa using hj, ?_, ?_, ?_⟩
        · rw [refAdvance, if_neg hz, if_pos hfits, heq]
          rw [List.take_succ_cons, tokensBytes_cons]
          simp [Nat.add_assoc]
        · rw [List.take_succ_cons, alenSum_cons]
          clear hval
          omega
        · rcases hval with h | ⟨hlt, hs⟩
          · exact Or.inl h
          · exact Or.inr ⟨by simpa using hlt, by simpa using hs⟩
      · refine ⟨0, n, by omega, ?_, by simp [alenSum], ?_⟩
        · rw [refAdvance, if_neg hz, if_neg hfits]
          simp [tokensBytes]
        · exact Or.inr ⟨by simp, by simpa using hfits⟩

/-- The cursor `c` addresses logical position `p` of the token stream `ts`
(positions in `AdvanceCursor`'s character counting): it points at the byte
offset of some token boundary `j`, with a sub-token offset below token
`j`'s character count. -/
def CursorAt (tbl : CodeTable) (ts : List Token) (c : Cursor) (p : Nat) :
    Prop :=
  ∃ j s, j ≤ ts.length ∧
    c = ⟨(tokensBytes (ts.take j)).length, s⟩ ∧
    alenSum tbl (ts.take j) + s = p ∧
    (s = 0 ∨ ∃ h : j < ts.length, s < (ts.get ⟨j, h⟩).alen tbl)

/-- Workhorse: `AdvanceCursor` from a valid cursor at position `p` by `n`
characters computes the canonical reference advance to position `p + n`,
and lands on a valid cursor at `p + n`. -/
theorem advanceCursor_at (tbl : CodeTable) (ts : List Token)
    (hwf : ∀ t ∈ ts, t.wf) (c : Cursor) (p n : Nat)
    (hc : CursorAt tbl ts c p) (hpn : p + n ≤ alenSum tbl ts) :
    advanceCursor tbl (tokensBytes ts) c n = refAdvance tbl ts 0 (p + n) ∧
      CursorAt tbl ts (advanceCursor tbl (tokensBytes ts) c n) (p + n) := by
  obtain ⟨j, s, hj, hceq, hp, hval⟩ := hc
  have hsplit : tokensBytes ts =
      tokensBytes (ts.take j) ++ (tokensBytes (ts.drop j) ++ []) := by
    rw [List.append_nil, ← tokensBytes_append, List.take_append_drop]
  have hsum : alenSum tbl ts =
      alenSum tbl (ts.take j) + alenSum tbl (ts.drop j) := by
    rw [← alenSum_append, List.take_append_drop]
  have hwfd : ∀ t ∈ ts.drop j, t.wf := fun t ht =>
    hwf t (List.mem_of_mem_drop ht)
  have hmain : advanceCursor tbl (tokensBytes ts) c n =
      refAdvance tbl (ts.drop j) ((tokensBytes (ts.take j)).length)
        (n + s) := by
    rw [hceq]
    show advLoop tbl (tokensBytes ts) (n + s)
        (tokensBytes (ts.take j)).length 0 0 0 = _
    rw [hsplit]
    rw [advLoop_spec tbl (ts.drop j) hwfd [] (tokensBytes (ts.take j))
      (n + s) 0 0 0 (Nat.zero_le _) (by omega)]
    rw [Nat.sub_zero]
  have hshift := refAdvance_shift tbl j ts 0 (s + n) hj
  rw [Nat.zero_add] at hshift
  have hpn' : alenSum tbl (ts.take j) + (s + n) = p + n := by omega
  rw [hpn'] at hshift
  have hfinal : advanceCursor tbl (tokensBytes ts) c n =
      refAdvance tbl ts 0 (p + n) := by
    rw [hmain, hshift, Nat.add_comm s n]
  refine ⟨hfinal, ?_⟩
  obtain ⟨j2, s2, hj2, heq2, hpos2, hval2⟩ :=
    refAdvance_cursorAt tbl ts 0 (p + n) hpn
  rw [Nat.zero_add] at heq2
  exact ⟨j2, s2, hj2, by rw [hfinal, heq2], hpos2, hval2⟩

/-- C3.  Cursor advancement is additive: from any valid cursor at logical
position `p` of a well-formed compressed stream, advancing by `a` and then
by `b` yields the same cursor as advancing by `a + b`, whenever
`p + a + b` is within the stream's total character count. -/
theorem advanceCursor_add (tbl : CodeTable) (ts : List Token)
    (hwf : ∀ t ∈ ts, t.wf) (c : Cursor) (p a b : Nat)
    (hc : CursorAt tbl ts c p) (hab : p + a + b ≤ alenSum tbl ts) :
    advanceCursor tbl (tokensBytes ts)
        (advanceCursor tbl (tokensBytes ts) c a) b =
      advanceCursor tbl (tokensBytes ts) c (a + b) := by
  obtain ⟨-, h2⟩ := advanceCursor_at tbl ts hwf c p a hc (by omega)
  obtain ⟨h3, -⟩ := advanceCursor_at tbl ts hwf _ (p + a) b h2 (by omega)
  obtain ⟨h5, -⟩ := advanceCursor_at tbl ts hwf c p (a + b) hc (by omega)
  rw [h3, h5, Nat.add_assoc]

/-- Witness for C3 on a concrete stream of three bytecode tokens. -/
theorem advanceCursor_add_witness :
    (∀ t ∈ [Token.byteTok 97, Token.byteTok 98, Token.byteTok 99], t.wf) ∧
      CursorAt simpleTable [Token.byteTok 97, Token.byteTok 98,
        Token.byteTok 99] ⟨0, 0⟩ 0 ∧
      0 + 1 + 1 ≤ alenSum simpleTable [Token.byteTok 97, Token.byteTok 98,
        Token.byteTok 99] ∧
      advanceCursor simpleTable (tokensBytes [Token.byteTok 97,
          Token.byteTok 98, Token.byteTok 99])
        (advanceCursor simpleTable (tokensBytes [Token.byteTok 97,
          Token.byteTok 98, Token.byteTok 99]) ⟨0, 0⟩ 1) 1 =
      advanceCursor simpleTable (tokensBytes [Token.byteTok 97,
          Token.byteTok 98, Token.byteTok 99]) ⟨0, 0⟩ (1 + 1) :=
  ⟨by decide, ⟨0, 0, by decide, rfl, by decide, Or.inl rfl⟩, by decide,
    advanceCursor_add simpleTable _ (by decide) ⟨0, 0⟩ 0 1 1
      ⟨0, 0, by decide, rfl, by decide, Or.inl rfl⟩ (by decide)⟩

theorem dlenSum_cons (tbl : CodeTable) (t : Token) (ts : List Token) :
    dlenSum tbl (t :: ts) = (t.units tbl).length + dlenSum tbl ts := by
  simp [dlenSum]

/-- Shift a "some Unicode escape starts before `chars`" witness across a
non-Unicode head token. -/
theorem unicode_before_shift (tbl : CodeTable) (t : Token) (ts : List Token)
    (ht : t.isUnicodeEscape = false) (chars : Int) :
    (∃ k, ∃ h : k < (t :: ts).length,
        ((t :: ts).get ⟨k, h⟩).isUnicodeEscape = true ∧
        (dlenSum tbl ((t :: ts).take k) : Int) < chars) ↔
      (∃ k, ∃ h : k < ts.length, (ts.get ⟨k, h⟩).isUnicodeEscape = true ∧
        (dlenSum tbl (ts.take k) : Int) <
          chars - ((t.units tbl).length : Int)) := by
  constructor
  · rintro ⟨k, hk, hu, hd⟩
    cases k with
    | zero =>
      have hget : (t :: ts).get ⟨0, hk⟩ = t := rfl
      rw [hget, ht] at hu
      exact absurd hu (by simp)
    | succ k2 =>
      refine ⟨k2, by simpa using hk, by simpa using hu, ?_⟩
      rw [List.take_succ_cons, dlenSum_cons] at hd
      push_cast at hd ⊢
      omega
  · rintro ⟨k, hk, hu, hd⟩
    refine ⟨k + 1, by simpa using hk, by simpa using hu, ?_⟩
    rw [List.take_succ_cons, dlenSum_cons]
    push_cast at hd ⊢
    omega

/-- The `IsAscii` loop on a well-formed stream succeeds iff no Unicode
escape token starts strictly before the remaining character count. -/
theorem isAsciiLoop_spec (tbl : CodeTable) (post : List Nat) :
    ∀ (ts : List Token), (∀ t ∈ ts, t.wf) →
      ∀ (pre : List Nat) (chars : Int), chars ≤ (dlenSum tbl ts : Int) →
      (isAsciiLoop tbl (pre ++ (tokensBytes ts ++ post)) pre.length chars
          = true ↔
        ¬ ∃ k, ∃ h : k < ts.length, (ts.get ⟨k, h⟩).isUnicodeEscape = true ∧
          (dlenSum tbl (ts.take k) : Int) < chars) := by
  intro ts
  induction ts with
  | nil =>
    intro _ pre chars hch
    simp only [dlenSum, List.map_nil, List.sum_nil, Nat.cast_zero] at hch
    rw [isAsciiLoop, dif_neg (by omega)]
    simp
  | cons t ts ih =>
    intro hwf pre chars hch
    have hwft : t.wf := hwf t (List.mem_cons_self t ts)
    have hwfr : ∀ u ∈ ts, u.wf := fun u hu => hwf u (List.mem_cons_of_mem t hu)
    by_cases hpos : 0 < chars
    · have hdata : pre ++ (tokensBytes (t :: ts) ++ post) =
          pre ++ (t.bytes ++ (tokensBytes ts ++ post)) := by
        rw [tokensBytes_cons, List.append_assoc]
      have happ : pre ++ (t.bytes ++ (tokensBytes ts ++ post)) =
          (pre ++ t.bytes) ++ (tokensBytes ts ++ post) := by
        rw [List.append_assoc]
      rw [dlenSum_cons] at hch
      cases t with
      | asciiTok b =>
        have hcode : (pre ++ (tokensBytes (Token.asciiTok b :: ts) ++
            post)).getD pre.length 0 = 0 := by
          rw [hdata]
          have := getD_append_add pre
            ((Token.asciiTok b).bytes ++ (tokensBytes ts ++ post)) 0
          simpa [Token.bytes] using this
        rw [isAsciiLoop, dif_pos hpos, hcode]
        rw [if_neg (by omega), if_pos rfl]
        have hstep : pre.length + 2 = (pre ++ (Token.asciiTok b).bytes).length := by
          simp [Token.bytes]
        rw [hdata, happ, hstep]
        rw [ih hwfr (pre ++ (Token.asciiTok b).bytes)
          (chars - tbl.token_lengths 0)
          (by rw [tbl.len_ascii]; simp [Token.units] at hch ⊢; omega)]
        have hu2 : ((Token.asciiTok b).units tbl).length =
            tbl.token_lengths 0 := by
          simp [Token.units, tbl.len_ascii]
        rw [← hu2]
        exact (not_congr
          (unicode_before_shift tbl (Token.asciiTok b) ts rfl chars)).symm
      | byteTok c =>
        have hge : 2 ≤ c := hwft.1
        have hcode : (pre ++ (tokensBytes (Token.byteTok c :: ts) ++
            post)).getD pre.length 0 = c := by
          rw [hdata]
          have := getD_append_add pre
            ((Token.byteTok c).bytes ++ (tokensBytes ts ++ post)) 0
          simpa [Token.bytes] using this
        rw [isAsciiLoop, dif_pos hpos, hcode]
        rw [if_pos hge]
        have hstep : pre.length + 1 = (pre ++ (Token.byteTok c).bytes).length := by
          simp [Token.bytes]
        rw [hdata, happ, hstep]
        rw [ih hwfr (pre ++ (Token.byteTok c).bytes)
          (chars - tbl.token_lengths c)
          (by
            have hlen : ((Token.byteTok c).units tbl).length =
                tbl.token_lengths c := by
              simp [Token.units, tbl.expansion_length]
            rw [hlen] at hch
            push_cast at hch ⊢
            omega)]
        have hu2 : ((Token.byteTok c).units tbl).length =
            tbl.token_lengths c := by
          simp [Token.units, tbl.expansion_length]
        rw [← hu2]
        exact (not_congr
          (unicode_before_shift tbl (Token.byteTok c) ts rfl chars)).symm
      | unicodeTok b0 b1 b2 =>
        have hcode : (pre ++ (tokensBytes (Token.unicodeTok b0 b1 b2 :: ts) ++
            post)).getD pre.length 0 = 1 := by
          rw [hdata]
          have := getD_append_add pre
            ((Token.unicodeTok b0 b1 b2).bytes ++ (tokensBytes ts ++ post)) 0
          simpa [Token.bytes] using this
        rw [isAsciiLoop, dif_pos hpos, hcode]
        rw [if_neg (by omega), if_neg (by omega)]
        have hex : ∃ k, ∃ h : k < (Token.unicodeTok b0 b1 b2 :: ts).length,
            ((Token.unicodeTok b0 b1 b2 :: ts).get ⟨k, h⟩).isUnicodeEscape
              = true ∧
            (dlenSum tbl ((Token.unicodeTok b0 b1 b2 :: ts).take k) : Int)
              < chars :=
          ⟨0, by simp, by simp [Token.isUnicodeEscape], by
            simpa [dlenSum] using hpos⟩
        exact iff_of_false (by simp) (not_not_intro hex)
    · rw [isAsciiLoop, dif_neg hpos]
      have hnone : ¬ ∃ k, ∃ h : k < (t :: ts).length,
          ((t :: ts).get ⟨k, h⟩).isUnicodeEscape = true ∧
          (dlenSum tbl ((t :: ts).take k) : Int) < chars := by
        rintro ⟨k, hk, -, hd⟩
        have : (0 : Int) ≤ (dlenSum tbl ((t :: ts).take k) : Int) := by
          positivity
        omega
      exact iff_of_true rfl hnone

theorem Token.one_le_units_length (tbl : CodeTable) (t : Token) :
    1 ≤ (t.units tbl).length := by
  cases t with
  | asciiTok b => simp [Token.units]
  | unicodeTok b0 b1 b2 =>
    simp only [Token.units, utf16Units]
    split <;> simp
  | byteTok c =>
    simp only [Token.units]
    rw [tbl.expansion_length]
    exact tbl.len_pos c

theorem unicodeContributesB_iff (tbl : CodeTable) (ts : List Token)
    (lo hi : Nat) :
    unicodeContributesB tbl ts lo hi = true ↔
      ∃ k, ∃ h : k < ts.length, (ts.get ⟨k, h⟩).isUnicodeEscape = true ∧
        max lo (dlenSum tbl (ts.take k)) <
          min hi (dlenSum tbl (ts.take k) +
            ((ts.get ⟨k, h⟩).units tbl).length) := by
  rw [unicodeContributesB, List.any_eq_true]
  constructor
  · rintro ⟨k, hk, hf⟩
    rw [List.mem_range] at hk
    rw [List.getD_eq_getElem ts _ hk] at hf
    simp only [Bool.and_eq_true, decide_eq_true_eq] at hf
    exact ⟨k, hk, hf.1, hf.2⟩
  · rintro ⟨k, hk, hu, hd⟩
    refine ⟨k, List.mem_range.mpr hk, ?_⟩
    rw [List.getD_eq_getElem ts _ hk]
    simp only [Bool.and_eq_true, decide_eq_true_eq]
    exact ⟨hu, hd⟩

/-- C7 (amended).  Over a well-formed stream, with the cursor mid-token
offset within the first token's decoded length and the range within the
stream, `IsAscii` returns true iff no Unicode-escape token contributes a
code unit to the range — except that for an *empty* range (`len = 0`) with
a nonzero sub-token offset, the token under the cursor is still examined,
so `IsAscii` additionally returns false when that token is a Unicode
escape. -/
theorem isAscii_iff (tbl : CodeTable) (ts : List Token)
    (hwf : ∀ t ∈ ts, t.wf) (pre post : List Nat) (sub len : Nat)
    (hsub : sub = 0 ∨
      ∃ h : 0 < ts.length, sub < ((ts.get ⟨0, h⟩).units tbl).length)
    (hbound : sub + len ≤ dlenSum tbl ts) :
    isAscii tbl (pre ++ (tokensBytes ts ++ post)) ⟨pre.length, sub⟩ len
        = true ↔
      (unicodeContributesB tbl ts sub (sub + len) = false ∧
        (len = 0 → ¬(0 < sub ∧ ∃ h : 0 < ts.length,
          (ts.get ⟨0, h⟩).isUnicodeEscape = true))) := by
  have hloop := isAsciiLoop_spec tbl post ts hwf pre ((len : Int) + sub)
    (by push_cast; omega)
  rw [isAscii]
  show isAsciiLoop tbl _ _ _ = true ↔ _
  rw [hloop]
  have hcast : ∀ k, ((dlenSum tbl (ts.take k) : Int) < (len : Int) + sub) ↔
      dlenSum tbl (ts.take k) < sub + len := by
    intro k
    constructor <;> intro h <;> omega
  constructor
  · intro hA
    constructor
    · rw [← Bool.not_eq_true]
      intro hB
      rw [unicodeContributesB_iff] at hB
      obtain ⟨k, hk, hu, hd⟩ := hB
      exact hA ⟨k, hk, hu, (hcast k).mpr (by omega)⟩
    · rintro hlen ⟨hs, h0, hu0⟩
      exact hA ⟨0, h0, hu0, by
        rw [hcast 0]
        simp only [List.take_zero, dlenSum, List.map_nil, List.sum_nil]
        omega⟩
  · rintro ⟨hB, hC⟩ ⟨k, hk, hu, hd⟩
    rw [hcast k] at hd
    rw [← Bool.not_eq_true, unicodeContributesB_iff] at hB
    cases k with
    | zero =>
      by_cases hlen : len = 0
      · subst hlen
        simp only [List.take_zero, dlenSum, List.map_nil, List.sum_nil,
          Nat.zero_add] at hd
        exact hC rfl ⟨by omega, hk, hu⟩
      · refine hB ⟨0, hk, hu, ?_⟩
        simp only [List.take_zero, dlenSum, List.map_nil, List.sum_nil]
        have h1 := Token.one_le_units_length tbl (ts.get ⟨0, hk⟩)
        rcases hsub with h | ⟨h0, hs⟩
        · subst h
          omega
        · have hsame : (ts.get ⟨0, h0⟩) = (ts.get ⟨0, hk⟩) := rfl
          rw [hsame] at hs
          omega
    | succ k2 =>
      refine hB ⟨k2 + 1, hk, hu, ?_⟩
      have hhead : 0 < ts.length := by omega
      have hd0 : ((ts.get ⟨0, hhead⟩).units tbl).length ≤
          dlenSum tbl (ts.take (k2 + 1)) := by
        cases ts with
        | nil => simp at hhead
        | cons t rest =>
          rw [List.take_succ_cons, dlenSum_cons]
          have hget : (t :: rest).get ⟨0, hhead⟩ = t := rfl
          rw [hget]
          omega
      have hsub0 : sub < dlenSum tbl (ts.take (k2 + 1)) := by
        have h1 := Token.one_le_units_length tbl (ts.get ⟨0, hhead⟩)
        rcases hsub with h | ⟨h0, hs⟩
        · omega
        · have hsame : (ts.get ⟨0, h0⟩) = (ts.get ⟨0, hhead⟩) := rfl
          rw [hsame] at hs
          omega
      have h2 := Token.one_le_units_length tbl (ts.get ⟨k2 + 1, hk⟩)
      omega

/-- C7 counterexample.  A cursor sitting mid-token on a Unicode escape for
U+10000 (`sub_token_offset = 1`, addressing the trail surrogate) with an
empty range: no Unicode escape contributes any code unit to the empty
range, yet `IsAscii` returns false. -/
theorem isAscii_empty_range_cex :
    isAscii simpleTable (tokensBytes [Token.unicodeTok 1 0 0]) ⟨0, 1⟩ 0
        = false ∧
      unicodeContributesB simpleTable [Token.unicodeTok 1 0 0] 1 1
        = false ∧
      1 < ((Token.unicodeTok 1 0 0).units simpleTable).length := by
  refine ⟨?_, by decide, by decide⟩
  simp [isAscii, isAsciiLoop, tokensBytes, Token.bytes]

theorem write_as_utf16_nine (cp : Nat) :
    (write_as_utf16 cp 9).1 = utf16Units cp := by
  rw [write_as_utf16, utf16Units]
  split
  · simp
  · simp

theorem expansion_take_nine (tbl : CodeTable) (c : Nat) :
    (tbl.expansion c).take 9 = tbl.expansion c := by
  apply List.take_all_of_le
  rw [tbl.expansion_length]
  exact tbl.len_max c

theorem decodeLoop_zero (tbl : CodeTable) (data : List Nat) (ptr : Nat) :
    decodeLoop tbl data ptr 0 = [] := by
  rw [decodeLoop]
  simp

theorem take_one_drop (l : List Nat) (s : Nat) (h : s < l.length) :
    (l.drop s).take 1 = [l.getD s 0] := by
  rw [List.getD_eq_getElem _ _ h, List.drop_eq_getElem_cons h]
  rfl

theorem utf16Units_length_pos (cp : Nat) : 1 ≤ (utf16Units cp).length := by
  rw [utf16Units]
  split <;> simp

theorem write_as_utf16_parts (cp destLen : Nat) (hd : 1 ≤ destLen) :
    (write_as_utf16 cp destLen).1 = (utf16Units cp).take destLen ∧
      (write_as_utf16 cp destLen).2 = (utf16Units cp).length := by
  rw [write_as_utf16, utf16Units]
  split
  · constructor
    · simp only [if_pos hd]
      rw [List.take_all_of_le (by simpa using hd)]
    · simp
  · exact ⟨rfl, rfl⟩

/-- Evaluating `Get` at a cursor on the first token of the remaining stream, with the
sub-token offset inside that token's decoded units, returns exactly the
addressed unit. -/
theorem Get_at (tbl : CodeTable) (t : Token) (rest : List Token)
    (hwft : t.wf) (pre post : List Nat) (s : Nat)
    (hs : s < (t.units tbl).length) :
    Get tbl (pre ++ (tokensBytes (t :: rest) ++ post)) ⟨pre.length, s⟩ =
      (t.units tbl).getD s 0 := by
  have hdata : pre ++ (tokensBytes (t :: rest) ++ post) =
      pre ++ (t.bytes ++ (tokensBytes rest ++ post)) := by
    rw [tokensBytes_cons, List.append_assoc]
  have hread : ∀ i, (pre ++ (tokensBytes (t :: rest) ++ post)).getD
      (pre.length + i) 0 = (t.bytes ++ (tokensBytes rest ++ post)).getD i 0 := by
    intro i
    rw [hdata]
    exact getD_append_add pre (t.bytes ++ (tokensBytes rest ++ post)) i
  have hread0 := hread 0
  rw [Nat.add_zero] at hread0
  rw [Get, decode]
  by_cases hz : s = 0
  · subst hz
    rw [if_neg (by simp)]
    cases t with
    | asciiTok b =>
      have hcode : (pre ++ (tokensBytes (Token.asciiTok b :: rest) ++
          post)).getD pre.length 0 = 0 := by
        rw [hread0]; rfl
      have hb : (pre ++ (tokensBytes (Token.asciiTok b :: rest) ++
          post)).getD (pre.length + 1) 0 = b := by
        rw [hread 1]; rfl
      dsimp only
      rw [decodeLoop, dif_neg (by omega), hcode]
      rw [if_neg (by omega), if_pos rfl, hb]
      rw [show (1 : Nat) - 1 = 0 from rfl, decodeLoop_zero]
      rfl
    | byteTok c =>
      have hge : 2 ≤ c := hwft.1
      have hcode : (pre ++ (tokensBytes (Token.byteTok c :: rest) ++
          post)).getD pre.length 0 = c := by
        rw [hread0]; rfl
      rw [Token.units] at hs
      dsimp only
      rw [decodeLoop, dif_neg (by omega), hcode, if_pos hge]
      have hlen : ((tbl.expansion c).take 1).length = 1 := by
        rw [List.length_take]
        omega
      rw [hlen, show (1 : Nat) - 1 = 0 from rfl, decodeLoop_zero,
        List.append_nil]
      have h1 : ((tbl.expansion c).take 1).getD 0 0 =
          (tbl.expansion c).getD 0 0 := by
        cases hexp : tbl.expansion c with
        | nil => simp
        | cons a l => simp
      rw [h1]
      rfl
    | unicodeTok b0 b1 b2 =>
      have hcode : (pre ++ (tokensBytes (Token.unicodeTok b0 b1 b2 :: rest) ++
          post)).getD pre.length 0 = 1 := by
        rw [hread0]; rfl
      have hb0 : (pre ++ (tokensBytes (Token.unicodeTok b0 b1 b2 :: rest) ++
          post)).getD (pre.length + 1) 0 = b0 := by
        rw [hread 1]; rfl
      have hb1 : (pre ++ (tokensBytes (Token.unicodeTok b0 b1 b2 :: rest) ++
          post)).getD (pre.length + 2) 0 = b1 := by
        rw [hread 2]; rfl
      have hb2 : (pre ++ (tokensBytes (Token.unicodeTok b0 b1 b2 :: rest) ++
          post)).getD (pre.length + 3) 0 = b2 := by
        rw [hread 3]; rfl
      dsimp only
      rw [decodeLoop, dif_neg (by omega), hcode]
      rw [if_neg (by omega), if_neg (by omega), hb0, hb1, hb2]
      have hw := write_as_utf16_parts (decode_unicode b0 b1 b2) 1 (le_refl 1)
      rw [Token.units, hw.1, hw.2]
      have h0 : 0 < (utf16Units (decode_unicode b0 b1 b2)).length :=
        utf16Units_length_pos _
      have hz2 : (1 : Nat) - (utf16Units (decode_unicode b0 b1 b2)).length
          = 0 := by omega
      rw [hz2, decodeLoop_zero, List.append_nil]
      rw [show (utf16Units (decode_unicode b0 b1 b2)).take 1 =
        ((utf16Units (decode_unicode b0 b1 b2)).drop 0).take 1 from rfl]
      rw [take_one_drop _ _ h0]
      rfl
  · rw [if_pos hz]
    cases t with
    | asciiTok b =>
      rw [Token.units] at hs
      simp only [List.length_singleton] at hs
      omega
    | byteTok c =>
      have hge : 2 ≤ c := hwft.1
      have hcode : (pre ++ (tokensBytes (Token.byteTok c :: rest) ++
          post)).getD pre.length 0 = c := by
        rw [hread0]; rfl
      rw [Token.units] at hs
      dsimp only
      rw [hcode, if_pos hge]
      rw [decodeFirst]
      rw [expansion_take_nine]
      rw [take_one_drop _ _ hs]
      rw [show ((1 : Nat) - [(tbl.expansion c).getD s 0].length) = 0 from rfl,
        decodeLoop_zero, List.append_nil]
      rfl
    | unicodeTok b0 b1 b2 =>
      have hcode : (pre ++ (tokensBytes (Token.unicodeTok b0 b1 b2 :: rest) ++
          post)).getD pre.length 0 = 1 := by
        rw [hread0]; rfl
      have hb0 : (pre ++ (tokensBytes (Token.unicodeTok b0 b1 b2 :: rest) ++
          post)).getD (pre.length + 1) 0 = b0 := by
        rw [hread 1]; rfl
      have hb1 : (pre ++ (tokensBytes (Token.unicodeTok b0 b1 b2 :: rest) ++
          post)).getD (pre.length + 2) 0 = b1 := by
        rw [hread 2]; rfl
      have hb2 : (pre ++ (tokensBytes (Token.unicodeTok b0 b1 b2 :: rest) ++
          post)).getD (pre.length + 3) 0 = b2 := by
        rw [hread 3]; rfl
      rw [Token.units] at hs
      dsimp only
      rw [hcode, if_neg (by omega), if_neg (by omega), hb0, hb1, hb2]
      rw [decodeFirst, write_as_utf16_nine]
      rw [take_one_drop _ _ hs]
      rw [show ((1 : Nat) -
          [(utf16Units (decode_unicode b0 b1 b2)).getD s 0].length) = 0
          from rfl, decodeLoop_zero, List.append_nil]
      rfl

/-- No Unicode escape of the token encodes exactly code point `0xFFFF` (the
value on which `uc16_length` and `write_as_utf16` disagree). -/
def Token.notFFFF : Token → Prop
  | .unicodeTok b0 b1 b2 => decode_unicode b0 b1 b2 ≠ kMaxNonSurrogateCharCode
  | _ => True

instance : DecidablePred Token.notFFFF := by
  intro t; cases t <;> dsimp [Token.notFFFF] <;> infer_instance

/-- Away from `0xFFFF`, `AdvanceCursor`'s character count of a token agrees
with the number of code units the decoder produces for it. -/
theorem alen_eq_units_length (tbl : CodeTable) (t : Token)
    (h : t.notFFFF) : t.alen tbl = (t.units tbl).length := by
  cases t with
  | asciiTok b => simp [Token.alen, Token.units, tbl.len_ascii]
  | byteTok c => simp [Token.alen, Token.units, tbl.expansion_length]
  | unicodeTok b0 b1 b2 =>
    rw [Token.notFFFF] at h
    rw [Token.alen, Token.units, tbl.len_unicode, uc16_length, utf16Units]
    rcases Nat.lt_trichotomy (decode_unicode b0 b1 b2)
      kMaxNonSurrogateCharCode with hlt | heq | hgt
    · rw [if_pos hlt, if_pos (by omega)]
      simp
    · exact absurd heq h
    · rw [if_neg (by omega), if_neg (by omega)]
      simp

theorem alenSum_eq_dlenSum (tbl : CodeTable) (ts : List Token)
    (h : ∀ t ∈ ts, t.notFFFF) : alenSum tbl ts = dlenSum tbl ts := by
  induction ts with
  | nil => rfl
  | cons t ts ih =>
    rw [alenSum_cons, dlenSum_cons,
      alen_eq_units_length tbl t (h t (List.mem_cons_self t ts)),
      ih (fun u hu => h u (List.mem_cons_of_mem t hu))]

theorem unitsFrom_cons (tbl : CodeTable) (t : Token) (ts : List Token) :
    unitsFrom tbl (t :: ts) = t.units tbl ++ unitsFrom tbl ts := by
  simp [unitsFrom]

theorem unitsFrom_length (tbl : CodeTable) (ts : List Token) :
    (unitsFrom tbl ts).length = dlenSum tbl ts := by
  induction ts with
  | nil => rfl
  | cons t ts ih =>
    rw [unitsFrom_cons, dlenSum_cons, List.length_append, ih]

/-- Indexing the concatenated decoded units of a stream at token `k`,
offset `s`. -/
theorem unitsFrom_getD (tbl : CodeTable) :
    ∀ (ts : List Token) (k : Nat) (hk : k < ts.length) (s : Nat),
      s < ((ts.get ⟨k, hk⟩).units tbl).length →
      (unitsFrom tbl ts).getD (dlenSum tbl (ts.take k) + s) 0 =
        ((ts.get ⟨k, hk⟩).units tbl).getD s 0 := by
  intro ts
  induction ts with
  | nil => intro k hk; simp at hk
  | cons t ts ih =>
    intro k hk s hs
    cases k with
    | zero =>
      rw [unitsFrom_cons]
      simp only [List.take_zero, dlenSum, List.map_nil, List.sum_nil,
        Nat.zero_add]
      have hget : (t :: ts).get ⟨0, hk⟩ = t := rfl
      rw [hget] at hs ⊢
      exact List.getD_append _ _ _ _ hs
    | succ k2 =>
      rw [unitsFrom_cons, List.take_succ_cons, dlenSum_cons, Nat.add_assoc]
      rw [getD_append_add (t.units tbl) (unitsFrom tbl ts)
        (dlenSum tbl (ts.take k2) + s)]
      have hk2 : k2 < ts.length := by
        simp only [List.length_cons] at hk
        omega
      have hget : (t :: ts).get ⟨k2 + 1, hk⟩ = ts.get ⟨k2, hk2⟩ := rfl
      rw [hget] at hs ⊢
      exact ih k2 hk2 s hs

/-- The `GetLineNumberSlow` walk starting from the canonical cursor at
position `p` counts the line feeds among the next `n` decoded code units —
provided no Unicode escape encodes exactly `0xFFFF`. -/
theorem lineLoop_spec (tbl : CodeTable) (ts : List Token)
    (hwf : ∀ t ∈ ts, t.wf) (hno : ∀ t ∈ ts, t.notFFFF) :
    ∀ (n p line : Nat), p + n ≤ dlenSum tbl ts →
      getLineNumberLoop tbl (tokensBytes ts) n (refAdvance tbl ts 0 p) line =
        line + (((unitsFrom tbl ts).drop p).take n).count 10 := by
  have hsum : alenSum tbl ts = dlenSum tbl ts := alenSum_eq_dlenSum tbl ts hno
  intro n
  induction n with
  | zero =>
    intro p line _
    simp [getLineNumberLoop]
  | succ n ih =>
    intro p line hb
    have hp : p < dlenSum tbl ts := by omega
    obtain ⟨j, s, hj, heq, hpos, hval⟩ :=
      refAdvance_cursorAt tbl ts 0 p (by omega)
    rw [Nat.zero_add] at heq
    have hjlt : j < ts.length := by
      by_contra hge
      have hj2 : j = ts.length := by omega
      subst hj2
      rw [List.take_length] at hpos
      omega
    have hmem : ts.get ⟨j, hjlt⟩ ∈ ts := List.get_mem ts j hjlt
    have halen : (ts.get ⟨j, hjlt⟩).alen tbl =
        ((ts.get ⟨j, hjlt⟩).units tbl).length :=
      alen_eq_units_length tbl _ (hno _ hmem)
    have hslt : s < ((ts.get ⟨j, hjlt⟩).units tbl).length := by
      rcases hval with h0 | ⟨h2, hs⟩
      · subst h0
        exact Token.one_le_units_length tbl _
      · have hsame : ts.get ⟨j, h2⟩ = ts.get ⟨j, hjlt⟩ := rfl
        rw [hsame, halen] at hs
        exact hs
    have hdrop : ts.drop j = ts.get ⟨j, hjlt⟩ :: ts.drop (j + 1) := by
      rw [List.drop_eq_getElem_cons hjlt]
      rfl
    have hdata : tokensBytes ts = tokensBytes (ts.take j) ++
        (tokensBytes (ts.get ⟨j, hjlt⟩ :: ts.drop (j + 1)) ++ []) := by
      rw [List.append_nil, ← hdrop, ← tokensBytes_append,
        List.take_append_drop]
    have hget : Get tbl (tokensBytes ts)
        ⟨(tokensBytes (ts.take j)).length, s⟩ =
        ((ts.get ⟨j, hjlt⟩).units tbl).getD s 0 := by
      rw [hdata]
      exact Get_at tbl _ (ts.drop (j + 1)) (hwf _ hmem) _ [] s hslt
    have hpos2 : dlenSum tbl (ts.take j) + s = p := by
      rw [← alenSum_eq_dlenSum tbl (ts.take j)
        (fun u hu => hno u (List.mem_of_mem_take hu))]
      exact hpos
    have hunit : (unitsFrom tbl ts).getD p 0 =
        ((ts.get ⟨j, hjlt⟩).units tbl).getD s 0 := by
      rw [← hpos2]
      exact unitsFrom_getD tbl ts j hjlt s hslt
    have hcAt : CursorAt tbl ts (refAdvance tbl ts 0 p) p :=
      ⟨j, s, hj, heq, hpos, hval⟩
    have hadv := advanceCursor_at tbl ts hwf (refAdvance tbl ts 0 p) p 1
      hcAt (by omega)
    rw [getLineNumberLoop]
    rw [hadv.1]
    rw [heq, hget]
    rw [ih (p + 1) _ (by omega)]
    have hplen : p < (unitsFrom tbl ts).length := by
      rw [unitsFrom_length]
      exact hp
    have hdropu : (unitsFrom tbl ts).drop p =
        (unitsFrom tbl ts).getD p 0 :: (unitsFrom tbl ts).drop (p + 1) := by
      rw [List.getD_eq_getElem _ _ hplen, List.drop_eq_getElem_cons hplen]
    rw [hdropu, List.take_succ_cons, hunit]
    rw [List.count_cons]
    by_cases hch : ((ts.get ⟨j, hjlt⟩).units tbl).getD s 0 = 10
    · rw [if_pos hch, hch]
      simp
      omega
    · rw [if_neg hch]
      have : ¬ (((ts.get ⟨j, hjlt⟩).units tbl).getD s 0 == 10) = true := by
        simpa using hch
      simp only [this]
      simp

theorem refAdvance_zero (tbl : CodeTable) (ts : List Token) (b : Nat) :
    refAdvance tbl ts b 0 = ⟨b, 0⟩ := by
  cases ts <;> simp [refAdvance]

/-- C9 (amended).  `GetLineNumberSlow` clamps every out-of-range position
to `char_length` — the result for `pos > char_length` equals the result at
`char_length` — and, provided no Unicode escape in the stream encodes
exactly `0xFFFF`, that value is the total count of line-feed code units
(`0x000A`) in the decoded source. -/
theorem getLineNumberSlow_clamp (tbl : CodeTable) (ts : List Token)
    (hwf : ∀ t ∈ ts, t.wf) (hno : ∀ t ∈ ts, t.notFFFF) (pos : Nat)
    (hpos : dlenSum tbl ts < pos) :
    getLineNumberSlow tbl (tokensBytes ts) (dlenSum tbl ts) pos =
      getLineNumberSlow tbl (tokensBytes ts) (dlenSum tbl ts)
        (dlenSum tbl ts) ∧
    getLineNumberSlow tbl (tokensBytes ts) (dlenSum tbl ts) pos =
      (unitsFrom tbl ts).count 10 := by
  have hclamp : getLineNumberSlow tbl (tokensBytes ts) (dlenSum tbl ts) pos =
      getLineNumberLoop tbl (tokensBytes ts) (dlenSum tbl ts) ⟨0, 0⟩ 0 := by
    rw [getLineNumberSlow, if_pos hpos]
  have hclamp2 : getLineNumberSlow tbl (tokensBytes ts) (dlenSum tbl ts)
      (dlenSum tbl ts) =
      getLineNumberLoop tbl (tokensBytes ts) (dlenSum tbl ts) ⟨0, 0⟩ 0 := by
    rw [getLineNumberSlow, if_neg (lt_irrefl _)]
  have hwalk : getLineNumberLoop tbl (tokensBytes ts) (dlenSum tbl ts)
      ⟨0, 0⟩ 0 = (unitsFrom tbl ts).count 10 := by
    have h0 : (⟨0, 0⟩ : Cursor) = refAdvance tbl ts 0 0 :=
      (refAdvance_zero tbl ts 0).symm
    rw [h0]
    rw [lineLoop_spec tbl ts hwf hno (dlenSum tbl ts) 0 0 (by omega)]
    rw [List.drop_zero]
    rw [List.take_all_of_le (le_of_eq (unitsFrom_length tbl ts))]
    omega
  exact ⟨hclamp.trans hclamp2.symm, hclamp.trans hwalk⟩

theorem getLineNumberSlow_clamp_witness :
    (∀ t ∈ [Token.asciiTok 10, Token.asciiTok 97], t.wf) ∧
      (∀ t ∈ [Token.asciiTok 10, Token.asciiTok 97], t.notFFFF) ∧
      dlenSum simpleTable [Token.asciiTok 10, Token.asciiTok 97] < 7 ∧
      (getLineNumberSlow simpleTable
          (tokensBytes [Token.asciiTok 10, Token.asciiTok 97])
          (dlenSum simpleTable [Token.asciiTok 10, Token.asciiTok 97]) 7 =
        getLineNumberSlow simpleTable
          (tokensBytes [Token.asciiTok 10, Token.asciiTok 97])
          (dlenSum simpleTable [Token.asciiTok 10, Token.asciiTok 97])
          (dlenSum simpleTable [Token.asciiTok 10, Token.asciiTok 97]) ∧
      getLineNumberSlow simpleTable
          (tokensBytes [Token.asciiTok 10, Token.asciiTok 97])
          (dlenSum simpleTable [Token.asciiTok 10, Token.asciiTok 97]) 7 =
        (unitsFrom simpleTable
          [Token.asciiTok 10, Token.asciiTok 97]).count 10) :=
  ⟨by decide, by decide, by decide,
    getLineNumberSlow_clamp simpleTable [Token.asciiTok 10, Token.asciiTok 97]
      (by decide) (by decide) 7 (by decide)⟩

/-- C9 counterexample to the unqualified line-count clause.  The stream
encodes `[U+FFFF, 'a', LF]`; because `uc16_length` miscounts the U+FFFF
escape, the per-character walk of `GetLineNumberSlow` re-reads the unit
after the escape and never sees the line feed: it returns 0 although the
decoded source contains one LF. -/
theorem getLineNumberSlow_ffff_cex :
    getLineNumberSlow simpleTable
        (tokensBytes [Token.unicodeTok 0 255 255, Token.asciiTok 97,
          Token.asciiTok 10]) 3 10 = 0 ∧
      (unitsFrom simpleTable [Token.unicodeTok 0 255 255, Token.asciiTok 97,
          Token.asciiTok 10]).count 10 = 1 ∧
      dlenSum simpleTable [Token.unicodeTok 0 255 255, Token.asciiTok 97,
          Token.asciiTok 10] = 3 := by
  refine ⟨?_, by decide, by decide⟩
  simp [getLineNumberSlow, getLineNumberLoop, Get, decode, decodeLoop,
    decodeFirst, advanceCursor, advLoop, write_as_utf16, decode_unicode,
    uc16_length, utf16Units, kMaxNonSurrogateCharCode, tokensBytes,
    Token.bytes, simpleTable]

theorem isAscii_iff_witness :
    (∀ t ∈ [Token.asciiTok 97], t.wf) ∧
      ((0 : Nat) = 0 ∨ ∃ h : 0 < [Token.asciiTok 97].length,
        0 < (([Token.asciiTok 97].get ⟨0, h⟩).units simpleTable).length) ∧
      0 + 1 ≤ dlenSum simpleTable [Token.asciiTok 97] ∧
      (isAscii simpleTable
          ([] ++ (tokensBytes [Token.asciiTok 97] ++ []))
          ⟨List.length ([] : List Nat), 0⟩ 1 = true ↔
        (unicodeContributesB simpleTable [Token.asciiTok 97] 0 (0 + 1)
            = false ∧
          (1 = 0 → ¬(0 < 0 ∧ ∃ h : 0 < [Token.asciiTok 97].length,
            ([Token.asciiTok 97].get ⟨0, h⟩).isUnicodeEscape = true)))) :=
  ⟨by decide, Or.inl rfl, by decide,
    isAscii_iff simpleTable [Token.asciiTok 97] (by decide) [] [] 0 1
      (Or.inl rfl) (by decide)⟩

set_option maxRecDepth 4000 in
/-- C1.  The spec-modelled `Compress` of `s = [U+FFFF, 'a', 'b']` produces
a stream whose *full-range* decode reproduces `s`, yet
`Decompress(Compress(s), 2, 1)` yields `'a'` instead of `s[2] = 'b'`: the
`uc16_length` off-by-one makes `GetCursor(2)` skip past the `'a'` token's
start. -/
theorem decompress_range_ffff_bug :
    compress simpleTable [65535, 97, 98] = [1, 0, 255, 255, 97, 98] ∧
      decodeLoop simpleTable (compress simpleTable [65535, 97, 98]) 0 3 =
        [65535, 97, 98] ∧
      decompressRange simpleTable (compress simpleTable [65535, 97, 98])
        3 2 1 = [97] ∧
      ([65535, 97, 98].drop 2).take 1 = [98] := by
  have hbm1 : bestMatch simpleTable [65535, 97, 98] = none := by decide
  have hbm2 : bestMatch simpleTable [97, 98] = some 97 := by decide
  have hbm3 : bestMatch simpleTable [98] = some 98 := by decide
  have hcomp : compress simpleTable [65535, 97, 98] =
      [1, 0, 255, 255, 97, 98] := by
    rw [compress, compressBytes]
    rw [dif_neg (by simp)]
    norm_num
    rw [encodeChars, hbm1]
    rw [if_neg (by omega)]
    rw [if_neg (by decide)]
    have hlen97 : (simpleTable.expansion 97).length = 1 := rfl
    have hlen98 : (simpleTable.expansion 98).length = 1 := rfl
    simp only [encodeChars, hbm2, hbm3, hlen97, hlen98, unicodeEscapeBytes,
      List.drop_succ_cons, List.drop_zero]
    rw [show compressBytes simpleTable [] = [] from by rw [compressBytes]; simp]
    decide
  refine ⟨hcomp, ?_, ?_, by decide⟩
  · rw [hcomp]
    simp [decodeLoop, write_as_utf16, decode_unicode, utf16Units,
      kMaxNonSurrogateCharCode, simpleTable]
  · rw [hcomp]
    simp [decompressRange, GetCursor, ReadIndex, IndexSize, advanceCursor,
      advLoop, decode, decodeLoop, decodeFirst, uc16_length, decode_unicode,
      kMaxNonSurrogateCharCode, simpleTable]

set_option maxRecDepth 4000 in
/-- C8.  On the same stream, `SubStringEquals(2, "b")` returns false even
though the decoded source has `'b'` at position 2: the cursor for position
2 is displaced by the miscounted U+FFFF escape and the walk compares `'a'`
against `'b'`. -/
theorem subStringEquals_ffff_bug :
    compress simpleTable [65535, 97, 98] = [1, 0, 255, 255, 97, 98] ∧
      subStringEquals simpleTable (compress simpleTable [65535, 97, 98])
        3 2 [98] = false ∧
      ([65535, 97, 98].drop 2).take 1 = [98] := by
  have hbm1 : bestMatch simpleTable [65535, 97, 98] = none := by decide
  have hbm2 : bestMatch simpleTable [97, 98] = some 97 := by decide
  have hbm3 : bestMatch simpleTable [98] = some 98 := by decide
  have hcomp : compress simpleTable [65535, 97, 98] =
      [1, 0, 255, 255, 97, 98] := by
    rw [compress, compressBytes]
    rw [dif_neg (by simp)]
    norm_num
    rw [encodeChars, hbm1]
    rw [if_neg (by omega)]
    rw [if_neg (by decide)]
    have hlen97 : (simpleTable.expansion 97).length = 1 := rfl
    have hlen98 : (simpleTable.expansion 98).length = 1 := rfl
    simp only [encodeChars, hbm2, hbm3, hlen97, hlen98, unicodeEscapeBytes,
      List.drop_succ_cons, List.drop_zero]
    rw [show compressBytes simpleTable [] = [] from by rw [compressBytes]; simp]
    decide
  refine ⟨hcomp, ?_, by decide⟩
  rw [hcomp]
  simp [subStringEquals, sseLoop, Get, GetCursor, ReadIndex, IndexSize,
    advanceCursor, advLoop, decode, decodeLoop, decodeFirst, uc16_length,
    decode_unicode, kMaxNonSurrogateCharCode, write_as_utf16, utf16Units,
    simpleTable]

/-- When no dictionary expansion is a prefix of the upcoming characters,
the greedy match comes up empty. -/
theorem bestMatch_no_candidate (tbl : CodeTable) (s : List Nat)
    (h : ∀ c, 2 ≤ c → c ≤ 255 → (tbl.expansion c).isPrefixOf s = false) :
    bestMatch tbl s = none := by
  have key : ∀ (cs : List Nat), (∀ i ∈ cs, i < 254) →
      ∀ (acc : Option Nat),
      List.foldl
        (fun best i =>
          if (tbl.expansion (i + 2)).isPrefixOf s then
            match best with
            | none => some (i + 2)
            | some b =>
              if (tbl.expansion b).length < (tbl.expansion (i + 2)).length then
                some (i + 2)
              else best
          else best)
        acc cs = acc := by
    intro cs
    induction cs with
    | nil => intro _ acc; rfl
    | cons i rest ih =>
      intro hmem acc
      simp only [List.foldl_cons]
      have hi : i < 254 := hmem i (List.mem_cons_self i rest)
      have hc : (tbl.expansion (i + 2)).isPrefixOf s = false :=
        h (i + 2) (by omega) (by omega)
      rw [if_neg (by rw [hc]; exact Bool.false_ne_true)]
      exact ih (fun j hj => hmem j (List.mem_cons_of_mem i hj)) acc
  rw [bestMatch]
  exact key (List.range 254) (fun i hi => List.mem_range.mp hi) none

/-- With the one-byte identity dictionary, a character above the byte range
has no dictionary match. -/
theorem bestMatch_simple_miss (u : Nat) (hu : 256 ≤ u) (l : List Nat) :
    bestMatch simpleTable (u :: l) = none := by
  apply bestMatch_no_candidate
  intro c h2 h255
  show ([c].isPrefixOf (u :: l)) = false
  simp only [List.isPrefixOf, Bool.and_true]
  rw [beq_eq_false_iff_ne]
  omega

/-- With the one-byte identity dictionary, the match at a character 97 is
the bytecode 97 itself. -/
theorem bestMatch_simple_97 (l : List Nat) :
    bestMatch simpleTable (97 :: l) = some 97 := by
  have key : ∀ (cs : List Nat), (∀ i ∈ cs, i < 254) →
      ∀ (acc : Option Nat), (acc = none ∨ acc = some 97) →
      (95 ∈ cs ∨ acc = some 97) →
      List.foldl
        (fun best i =>
          if (simpleTable.expansion (i + 2)).isPrefixOf (97 :: l) then
            match best with
            | none => some (i + 2)
            | some b =>
              if (simpleTable.expansion b).length <
                  (simpleTable.expansion (i + 2)).length then
                some (i + 2)
              else best
          else best)
        acc cs = some 97 := by
    intro cs
    induction cs with
    | nil =>
      rintro _ acc hacc (hmem | hsome)
      · exact absurd hmem (by simp)
      · rw [List.foldl_nil, hsome]
    | cons i rest ih =>
      rintro hmem acc hacc hone
      simp only [List.foldl_cons]
      by_cases hi : i = 95
      · subst hi
        have hpre : (simpleTable.expansion (95 + 2)).isPrefixOf (97 :: l)
            = true := by
          show ([(95 + 2 : Nat)].isPrefixOf (97 :: l)) = true
          simp [List.isPrefixOf]
        rw [if_pos hpre]
        rcases hacc with rfl | rfl
        · exact ih (fun j hj => hmem j (List.mem_cons_of_mem _ hj)) _
            (Or.inr rfl) (Or.inr rfl)
        · exact ih (fun j hj => hmem j (List.mem_cons_of_mem _ hj)) _
            (Or.inr rfl) (Or.inr rfl)
      · have hpre : (simpleTable.expansion (i + 2)).isPrefixOf (97 :: l)
            = false := by
          show ([(i + 2 : Nat)].isPrefixOf (97 :: l)) = false
          simp only [List.isPrefixOf, Bool.and_true]
          rw [beq_eq_false_iff_ne]
          omega
        rw [if_neg (by rw [hpre]; exact Bool.false_ne_true)]
        refine ih (fun j hj => hmem j (List.mem_cons_of_mem _ hj)) acc hacc ?_
        rcases hone with hm | hs
        · rcases List.mem_cons.mp hm with he | hr
          · exact absurd he.symm hi
          · exact Or.inl hr
        · exact Or.inr hs
  rw [bestMatch]
  exact key (List.range 254) (fun i hi => List.mem_range.mp hi) none
    (Or.inl rfl) (Or.inl (List.mem_range.mpr (by norm_num)))

/-- Under the identity dictionary a run of 97s encodes to itself, one
bytecode per character. -/
theorem encodeChars_replicate_97 (n : Nat) :
    encodeChars simpleTable (List.replicate n 97) = List.replicate n 97 := by
  induction n with
  | zero =>
    rw [List.replicate_zero]
    rw [encodeChars]
  | succ m ih =>
    rw [List.replicate_succ]
    have hlen97 : (simpleTable.expansion 97).length = 1 := rfl
    cases m with
    | zero =>
      rw [List.replicate_zero]
      have hbm := bestMatch_simple_97 ([] : List Nat)
      simp only [encodeChars, hbm, hlen97, List.drop_succ_cons,
        List.drop_zero]
    | succ k =>
      rw [List.replicate_succ]
      have hbm := bestMatch_simple_97 (97 :: List.replicate k 97)
      simp only [encodeChars, hbm, hlen97, List.drop_succ_cons,
        List.drop_zero]
      rw [List.replicate_succ] at ih
      rw [ih]

/-- A U+FFFF character followed by a run of 97s encodes to a Unicode
escape carrying payload `00 FF FF` followed by the run itself. -/
theorem encodeChars_ffff_replicate (n : Nat) :
    encodeChars simpleTable (65535 :: List.replicate n 97) =
      1 :: 0 :: 255 :: 255 :: List.replicate n 97 := by
  cases n with
  | zero =>
    rw [List.replicate_zero, encodeChars,
      bestMatch_simple_miss 65535 (by norm_num) []]
    show unicodeEscapeBytes 65535 ++ encodeChars simpleTable [] =
      [1, 0, 255, 255]
    rw [show encodeChars simpleTable [] = ([] : List Nat) from by
      rw [encodeChars]]
    rw [List.append_nil]
    decide
  | succ m =>
    rw [List.replicate_succ, encodeChars,
      bestMatch_simple_miss 65535 (by norm_num) _]
    show (if isLeadSurrogateB 65535 ∧ isTrailSurrogateB 97 then
        unicodeEscapeBytes (combineSurrogatePair 65535 97) ++
          encodeChars simpleTable (List.replicate m 97)
      else unicodeEscapeBytes 65535 ++
          encodeChars simpleTable (97 :: List.replicate m 97)) =
      1 :: 0 :: 255 :: 255 :: (97 :: List.replicate m 97)
    rw [if_neg (by decide)]
    rw [show unicodeEscapeBytes 65535 = [1, 0, 255, 255] from by decide]
    rw [show (97 :: List.replicate m 97) = List.replicate (m + 1) 97 from by
      rw [List.replicate_succ]]
    rw [encodeChars_replicate_97 (m + 1)]
    rfl

/-- Serialization of a run of 97-bytecodes. -/
theorem tokensBytes_replicate_97 (n : Nat) :
    tokensBytes (List.replicate n (Token.byteTok 97)) =
      List.replicate n 97 := by
  induction n with
  | zero => rfl
  | succ m ih =>
    rw [List.replicate_succ, tokensBytes_cons, ih]
    rfl

/-- Character count of a run of 97-bytecodes under the identity
dictionary. -/
theorem alenSum_replicate_97 (n : Nat) :
    alenSum simpleTable (List.replicate n (Token.byteTok 97)) = n := by
  induction n with
  | zero => rfl
  | succ m ih =>
    rw [List.replicate_succ, alenSum_cons, ih]
    rw [show (Token.byteTok 97).alen simpleTable = 1 from rfl]
    omega

/-- The reference advance across a run of single-character bytecodes moves
one byte per character. -/
theorem refAdvance_replicate_97 :
    ∀ (n m b : Nat), m ≤ n →
      refAdvance simpleTable (List.replicate n (Token.byteTok 97)) b m =
        ⟨b + m, 0⟩ := by
  intro n
  induction n with
  | zero =>
    intro m b hm
    have hm0 : m = 0 := Nat.le_zero.mp hm
    subst hm0
    rw [List.replicate_zero, refAdvance]
    rfl
  | succ k ih =>
    intro m b hm
    rw [List.replicate_succ, refAdvance]
    by_cases hm0 : m = 0
    · subst hm0
      rw [if_pos rfl]
      rfl
    · rw [if_neg hm0]
      rw [if_pos (show (Token.byteTok 97).alen simpleTable ≤ m from by
        rw [show (Token.byteTok 97).alen simpleTable = 1 from rfl]
        omega)]
      rw [show (Token.byteTok 97).bytes.length = 1 from rfl,
        show (Token.byteTok 97).alen simpleTable = 1 from rfl]
      rw [ih (m - 1) (b + 1) (by omega)]
      rw [show b + 1 + (m - 1) = b + m from by omega]

/-- The first 1024 characters of the counterexample string. -/
theorem take_1024_ffff :
    (65535 :: List.replicate 1024 97).take 1024 =
      65535 :: List.replicate 1023 97 := by
  rw [show (1024 : Nat) = 1023 + 1 from rfl, List.take_succ_cons,
    List.take_replicate]
  norm_num

/-- The remainder of the counterexample string past its first block. -/
theorem drop_1024_ffff :
    (65535 :: List.replicate 1024 97).drop 1024 = [97] := by
  rw [show (1024 : Nat) = 1023 + 1 from rfl, List.drop_succ_cons,
    List.drop_replicate]
  norm_num [List.replicate_one]

/-- Encoding the first (1024-character) block of the counterexample
string: a 4-byte Unicode escape followed by 1023 one-byte bytecodes, 1027
bytes in all — the compressed offset of the token starting at true logical
position 1024. -/
theorem compressBytes_ffff_block :
    compressBytes simpleTable (65535 :: List.replicate 1023 97) =
      1 :: 0 :: 255 :: 255 :: List.replicate 1023 97 := by
  rw [compressBytes]
  rw [dif_neg (List.cons_ne_nil 65535 (List.replicate 1023 97))]
  rw [List.take_of_length_le
    (by rw [List.length_cons, List.length_replicate])]
  rw [List.drop_eq_nil_of_le
    (by rw [List.length_cons, List.length_replicate])]
  rw [show compressBytes simpleTable [] = [] from by rw [compressBytes]; simp]
  rw [encodeChars_ffff_replicate 1023]
  rw [List.append_nil]

/-- The compressed byte stream (before the index) of the counterexample
string. -/
theorem compressBytes_ffff :
    compressBytes simpleTable (65535 :: List.replicate 1024 97) =
      1 :: 0 :: 255 :: 255 :: List.replicate 1024 97 := by
  rw [compressBytes]
  rw [dif_neg (List.cons_ne_nil 65535 (List.replicate 1024 97))]
  rw [take_1024_ffff, drop_1024_ffff, encodeChars_ffff_replicate 1023]
  have hc97 : compressBytes simpleTable [97] = [97] := by
    rw [compressBytes]
    rw [dif_neg (by simp)]
    rw [List.take_of_length_le (by simp), List.drop_eq_nil_of_le (by simp)]
    rw [show compressBytes simpleTable [] = [] from by
      rw [compressBytes]; simp]
    rw [show encodeChars simpleTable [97] = [97] from by
      have h := encodeChars_replicate_97 1
      rwa [List.replicate_one] at h]
    rw [List.append_nil]
  rw [hc97]
  have hrep : List.replicate 1023 97 ++ [97] = List.replicate 1024 97 := by
    rw [show (1024 : Nat) = 1023 + 1 from rfl, List.replicate_add,
      List.replicate_one]
  simp only [List.cons_append]
  rw [hrep]

/-- The full spec-modelled compression of the counterexample string: the
stream of the two blocks followed by the single index entry 1027 in
little-endian bytes. -/
theorem compress_ffff :
    compress simpleTable (65535 :: List.replicate 1024 97) =
      (1 :: 0 :: 255 :: 255 :: List.replicate 1024 97) ++ [3, 4, 0, 0] := by
  rw [compress]
  rw [show (65535 :: List.replicate 1024 97).length = 1025 from by
    rw [List.length_cons, List.length_replicate]]
  rw [show (1025 / 1024 : Nat) = 1 from rfl]
  rw [show List.range 1 = [0] from by decide]
  simp only [List.map_cons, List.map_nil, List.flatten_cons, List.flatten_nil,
    List.append_nil]
  rw [show ((0 + 1) * 1024 : Nat) = 1024 from rfl]
  rw [take_1024_ffff, compressBytes_ffff_block, compressBytes_ffff]
  rw [show (1 :: 0 :: 255 :: 255 :: List.replicate 1023 97).length = 1027
    from by
      rw [List.length_cons, List.length_cons, List.length_cons,
        List.length_cons, List.length_replicate]]
  rw [show toLE4 1027 = [3, 4, 0, 0] from by decide]

/-- C3 counterexample, refuting the claim's GetCursor clause.  For the
1025-character source `U+FFFF` followed by 1024 copies of 97, the
spec-modelled `Compress` writes the index anchor at byte offset 1027 — the
true boundary of logical position 1024 — while `AdvanceCursor` charges the
U+FFFF escape 2 characters (the `uc16_length` defect) and therefore stops
one token short: `GetCursor(0)` advanced by 1024 lands at byte offset
1026, but `GetCursor(1024)` returns offset 1027.  The range is valid
(`start + length = 1024 ≤ 1025 = char_length`), yet the two cursors
differ. -/
theorem getCursor_advance_ffff_cex :
    (65535 :: List.replicate 1024 97).length = 1025 ∧
      compress simpleTable (65535 :: List.replicate 1024 97) =
        tokensBytes (Token.unicodeTok 0 255 255 ::
          List.replicate 1024 (Token.byteTok 97)) ++ [3, 4, 0, 0] ∧
      GetCursor simpleTable
          (compress simpleTable (65535 :: List.replicate 1024 97)) 0 1025 =
        ⟨0, 0⟩ ∧
      advanceCursor simpleTable
          (compress simpleTable (65535 :: List.replicate 1024 97)) ⟨0, 0⟩
          1024 = ⟨1026, 0⟩ ∧
      GetCursor simpleTable
          (compress simpleTable (65535 :: List.replicate 1024 97)) 1024
          1025 = ⟨1027, 0⟩ ∧
      (⟨1026, 0⟩ : Cursor) ≠ ⟨1027, 0⟩ := by
  have hdata : compress simpleTable (65535 :: List.replicate 1024 97) =
      tokensBytes (Token.unicodeTok 0 255 255 ::
        List.replicate 1024 (Token.byteTok 97)) ++ [3, 4, 0, 0] := by
    rw [compress_ffff, tokensBytes_cons, tokensBytes_replicate_97]
    rfl
  have hlen_tb : (tokensBytes (Token.unicodeTok 0 255 255 ::
      List.replicate 1024 (Token.byteTok 97))).length = 1028 := by
    rw [tokensBytes_cons, tokensBytes_replicate_97]
    rw [List.length_append, List.length_replicate,
      show (Token.unicodeTok 0 255 255).bytes.length = 4 from rfl]
  have hwf : ∀ t ∈ Token.unicodeTok 0 255 255 ::
      List.replicate 1024 (Token.byteTok 97), t.wf := by
    intro t ht
    rcases List.mem_cons.mp ht with h | h
    · subst h
      exact ⟨by norm_num, by norm_num, by norm_num⟩
    · rw [List.eq_of_mem_replicate h]
      exact ⟨by norm_num, by norm_num⟩
  have halen : alenSum simpleTable (Token.unicodeTok 0 255 255 ::
      List.replicate 1024 (Token.byteTok 97)) = 1026 := by
    rw [alenSum_cons, alenSum_replicate_97]
    rw [show (Token.unicodeTok 0 255 255).alen simpleTable = 2 from by decide]
  have hadv : advanceCursor simpleTable
      (tokensBytes (Token.unicodeTok 0 255 255 ::
        List.replicate 1024 (Token.byteTok 97)) ++ [3, 4, 0, 0]) ⟨0, 0⟩
      1024 = ⟨1026, 0⟩ := by
    have hs := advLoop_spec simpleTable
      (Token.unicodeTok 0 255 255 :: List.replicate 1024 (Token.byteTok 97))
      hwf [3, 4, 0, 0] [] 1024 0 0 0 (Nat.zero_le _)
      (by rw [Nat.sub_zero, halen]; norm_num)
    simp only [List.nil_append, List.length_nil, Nat.sub_zero] at hs
    rw [advanceCursor]
    dsimp only
    rw [Nat.add_zero, hs]
    rw [refAdvance]
    rw [if_neg (by norm_num)]
    rw [show (Token.unicodeTok 0 255 255).alen simpleTable = 2 from by decide]
    rw [if_pos (by norm_num)]
    rw [show (Token.unicodeTok 0 255 255).bytes.length = 4 from rfl]
    rw [show (0 + 4 : Nat) = 4 from rfl, show (1024 - 2 : Nat) = 1022 from rfl]
    rw [refAdvance_replicate_97 1024 1022 4 (by norm_num)]
  have hg0 : GetCursor simpleTable
      (tokensBytes (Token.unicodeTok 0 255 255 ::
        List.replicate 1024 (Token.byteTok 97)) ++ [3, 4, 0, 0]) 0 1025 =
      ⟨0, 0⟩ := by
    rw [GetCursor]
    rw [show ReadIndex (tokensBytes (Token.unicodeTok 0 255 255 ::
        List.replicate 1024 (Token.byteTok 97)) ++ [3, 4, 0, 0]) 0 1025 = 0
      from by rw [ReadIndex, if_pos (by norm_num)]]
    rw [show (0 % 1024 : Nat) = 0 from rfl]
    rw [advanceCursor]
    dsimp only
    rw [Nat.add_zero]
    rw [advLoop]
    rw [dif_neg (by omega), if_pos rfl]
  have hg1024 : GetCursor simpleTable
      (tokensBytes (Token.unicodeTok 0 255 255 ::
        List.replicate 1024 (Token.byteTok 97)) ++ [3, 4, 0, 0]) 1024 1025 =
      ⟨1027, 0⟩ := by
    have hri : ReadIndex (tokensBytes (Token.unicodeTok 0 255 255 ::
        List.replicate 1024 (Token.byteTok 97)) ++ [3, 4, 0, 0]) 1024 1025 =
        1027 := by
      rw [ReadIndex]
      rw [if_neg (by omega)]
      dsimp only
      rw [List.length_append, hlen_tb]
      rw [show ([3, 4, 0, 0] : List Nat).length = 4 from rfl]
      rw [show IndexSize 1025 = 4 from by decide]
      have hrd : ∀ i : Nat, (tokensBytes (Token.unicodeTok 0 255 255 ::
          List.replicate 1024 (Token.byteTok 97)) ++ [3, 4, 0, 0]).getD
            ((tokensBytes (Token.unicodeTok 0 255 255 ::
              List.replicate 1024 (Token.byteTok 97))).length + i) 0 =
          ([3, 4, 0, 0] : List Nat).getD i 0 := fun i => getD_append_add _ _ i
      have h0 := hrd 0
      rw [Nat.add_zero] at h0
      rw [show (1028 + 4 - 4 + (1024 / 1024 - 1) * 4 : Nat) =
          (tokensBytes (Token.unicodeTok 0 255 255 ::
            List.replicate 1024 (Token.byteTok 97))).length from by
        rw [hlen_tb]]
      rw [h0, hrd 1, hrd 2, hrd 3]
      decide
    rw [GetCursor, hri]
    rw [show (1024 % 1024 : Nat) = 0 from rfl]
    rw [advanceCursor]
    dsimp only
    rw [Nat.add_zero]
    rw [advLoop]
    rw [dif_neg (by omega), if_pos rfl]
  refine ⟨by rw [List.length_cons, List.length_replicate], hdata, ?_, ?_, ?_,
    by decide⟩
  · rw [hdata]
    exact hg0
  · rw [hdata]
    exact hadv
  · rw [hdata]
    exact hg1024

end V8
